import Mathlib

/-
Verification of the vector-space search engine (indexer_fixed.py / search.py).

Shallow embedding conventions:
* Python insertion-ordered dictionaries become association lists
  `List (κ × β)`; `d[k] = v` is `upsert` (replace in place, else append),
  `k in d` is `(lookup? k l).isSome`, `d.get(k, v)` is `lookupD`.
* The external collaborators (tokenizer `splitchars`, `normalize_token`,
  the stop-word / punctuation / length / number filters and the Porter
  stemmer, all imported from modules outside this repository) are modelled
  as a single parameter `pipe : String → String List` mapping a raw text
  to the sequence of surviving stemmed tokens, exactly as both
  `IndexerFixed.process_document_content` and `SearchEngine.parse_query`
  apply them token-wise.
* Floating point numbers are idealized as elements of a linear ordered
  field `α`; `math.log` and `math.sqrt` are passed as parameters
  `lg sq : α → α` and instantiated with `Real.log` / `Real.sqrt` in the
  theorems whose content depends on the analytic behaviour of those
  functions.
-/

namespace VSSE

/-- Association-list lookup: Python `d[k]` / `d.get(k)` on an
insertion-ordered dictionary represented as a list of key-value pairs. -/
def lookup? {κ β : Type} [DecidableEq κ] (k : κ) : List (κ × β) → Option β
  | [] => none
  | p :: rest => if p.1 = k then some p.2 else lookup? k rest

/-- Python `d.get(k, dflt)`. -/
def lookupD {κ β : Type} [DecidableEq κ] (l : List (κ × β)) (k : κ) (dflt : β) : β :=
  (lookup? k l).getD dflt

/-- The key sequence of an insertion-ordered dictionary (`d.keys()`). -/
def keysOf {κ β : Type} (l : List (κ × β)) : List κ := l.map Prod.fst

/-- Python `d[k] = v`: replace the value in place when the key is present,
otherwise append the new pair at the end (insertion order). -/
def upsert {κ β : Type} [DecidableEq κ] (k : κ) (v : β) : List (κ × β) → List (κ × β)
  | [] => [(k, v)]
  | p :: rest => if p.1 = k then (k, v) :: rest else p :: upsert k v rest

/-- Python `defaultdict(int); d[k] += 1` (used for term-frequency counting
in `process_document_content` and in `build_query_vector`). -/
def bump {κ : Type} [DecidableEq κ] (k : κ) : List (κ × ℕ) → List (κ × ℕ)
  | [] => [(k, 1)]
  | p :: rest => if p.1 = k then (p.1, p.2 + 1) :: rest else p :: bump k rest

/-- Term-frequency accumulation over a token sequence: the loop
`for token in tokens: term_freq[stemmed] += 1`, producing the counts in
first-occurrence order (Python dict iteration order). -/
def freqList {κ : Type} [DecidableEq κ] (ts : List κ) : List (κ × ℕ) :=
  ts.foldl (fun acc t => bump t acc) []

/-! ## Index builder (indexer_fixed.py, class IndexerFixed) -/

/-- First-pass postings: `self.postings : term_id -> {doc_id: {'tf': freq}}`,
before `calculate_tf_idf` adds the derived fields. -/
abbrev RawPostings := List (ℕ × List (ℕ × ℕ))

/-- Mutable builder state of `IndexerFixed` (the fields touched by
`process_document_content`). -/
structure IndexerState where
  documents : List (String × ℕ)
  terms : List (String × ℕ)
  postings : RawPostings
  nextDocId : ℕ
  nextTermId : ℕ
deriving Repr, DecidableEq

/-- `IndexerFixed.__init__`: empty tables, both id counters start at 1. -/
def initIndexer : IndexerState :=
  { documents := [], terms := [], postings := [], nextDocId := 1, nextTermId := 1 }

/-- Models `self.postings[term_id][doc_id] = {'tf': freq}` where
`self.postings` is a `defaultdict(dict)`: the outer access materializes the
inner dict if missing, then the inner assignment upserts. -/
def postTf (tid did tf : ℕ) (ps : RawPostings) : RawPostings :=
  upsert tid (upsert did tf (lookupD ps tid [])) ps

/-- One iteration of the `for term, freq in term_freq.items()` loop of
`process_document_content`: if the term string is unseen, register it
under the next term id (counter incremented), then upsert the posting
`(term_id, docId) ↦ freq`.  The accumulator carries the term table, the
next term id and the postings store. -/
def addPosting (docId : ℕ) (acc : List (String × ℕ) × ℕ × RawPostings)
    (p : String × ℕ) : List (String × ℕ) × ℕ × RawPostings :=
  match lookup? p.1 acc.1 with
  | some tid => (acc.1, acc.2.1, postTf tid docId p.2 acc.2.2)
  | none => (acc.1 ++ [(p.1, acc.2.1)], acc.2.1 + 1,
      postTf acc.2.1 docId p.2 acc.2.2)

/-- `IndexerFixed.process_document_content(content, doc_path)`:
assign the next document id, register the path (a duplicate path is
silently overwritten by plain dict assignment — there is no duplicate
check in the source), tokenize/filter/stem via the collaborator pipeline,
accumulate term frequencies, assign fresh term ids to unseen terms and
upsert one posting per (term, document). Always returns the assigned id
(the `except` branch is unreachable for total collaborators). -/
def process_document_content (pipe : String → List String) (st : IndexerState)
    (content docPath : String) : IndexerState × ℕ :=
  let docId := st.nextDocId
  let docs := upsert docPath docId st.documents
  let tf := freqList (pipe content)
  let r := tf.foldl (addPosting docId) (st.terms, st.nextTermId, st.postings)
  ({ documents := docs, terms := r.1, postings := r.2.2,
     nextDocId := docId + 1, nextTermId := r.2.1 }, docId)

/-- The per-document loop of `IndexerFixed.build_index`: process a corpus
given as (doc_path, content) pairs, starting from the fresh builder. -/
def processAll (pipe : String → List String) (inputs : List (String × String)) :
    IndexerState :=
  inputs.foldl (fun st p => (process_document_content pipe st p.2 p.1).1) initIndexer

/-- Well-formedness of a raw postings store relative to a set of
registered document ids: every entry is a nonempty inner dict with
duplicate-free document keys, all of which are registered. -/
def PostingsWf (docIds : List ℕ) (ps : RawPostings) : Prop :=
  ∀ e ∈ ps, e.2 ≠ [] ∧ (keysOf e.2).Nodup ∧ ∀ d ∈ keysOf e.2, d ∈ docIds

/-- The referential invariant the builder maintains when every processed
document identifier string is fresh: registered paths and document ids are
duplicate-free, all ids are below the counter, and the postings store is
well-formed over the registered ids. -/
def BuilderInv (st : IndexerState) : Prop :=
  (keysOf st.documents).Nodup ∧
  (st.documents.map Prod.snd).Nodup ∧
  (∀ i ∈ st.documents.map Prod.snd, i < st.nextDocId) ∧
  PostingsWf (st.documents.map Prod.snd) st.postings

/-- A finalized posting record: the dict
`{'tf': …, 'tf_idf': …, 'idf': …, 'df': …}` after `calculate_tf_idf`. -/
structure Posting (α : Type) where
  tf : ℕ
  tf_idf : α
  idf : α
  df : ℕ
deriving Repr, DecidableEq

/-- Finalized postings store: term id ↦ (doc id ↦ posting record). -/
abbrev Postings (α : Type) := List (ℕ × List (ℕ × Posting α))

/-- `IndexerFixed.calculate_tf_idf`: for each term, `df` = number of
documents holding a posting, `idf = log(N / df)`, and every posting gets
`tf_idf = tf * idf` plus the `idf`/`df` fields. The source's
`if df == 0: continue` guard only skips entries with an empty inner dict,
for which the map below stores nothing either, so the result agrees. -/
def calculate_tf_idf {α : Type} [LinearOrderedField α] (lg : α → α) (N : ℕ)
    (ps : RawPostings) : Postings α :=
  ps.map fun e =>
    let df : ℕ := e.2.length
    let idf : α := lg ((N : α) / (df : α))
    (e.1, e.2.map fun q => (q.1, ⟨q.2, (q.2 : α) * idf, idf, df⟩))

/-- The inner loop of `calculate_document_lengths`: the sum of
`tf_idf * tf_idf` over all postings that mention document `d`. -/
def sumSquares {α : Type} [LinearOrderedField α] (d : ℕ) (ps : Postings α) : α :=
  (ps.map fun e =>
    match lookup? d e.2 with
    | some pd => pd.tf_idf * pd.tf_idf
    | none => 0).sum

/-- `IndexerFixed.calculate_document_lengths`: for every registered
document, its vector length is `sqrt` of the sum of squared tf-idf
weights of its postings. -/
def calculate_document_lengths {α : Type} [LinearOrderedField α] (sq : α → α)
    (documents : List (String × ℕ)) (ps : Postings α) : List (ℕ × α) :=
  documents.map fun e => (e.2, sq (sumSquares e.2 ps))

/-! ## Query engine (search.py, class SearchEngine) -/

/-- A loaded posting record
`{'tf_idf': float(…), 'tf': int(…), 'idf': float(…), 'df': int(…)}`.
`tf` and `df` are `ℤ` because `load_index` parses them with Python `int`. -/
structure PostingData (α : Type) where
  tf_idf : α
  tf : ℤ
  idf : α
  df : ℤ
deriving Repr, DecidableEq

/-- Loaded postings store of the engine: term id ↦ (doc id ↦ record).
Ids are `ℤ` because they are parsed with Python `int`. -/
abbrev EPostings (α : Type) := List (ℤ × List (ℤ × PostingData α))

/-- The state a `SearchEngine` holds after `load_index`.  `terms_inv` and
`total_terms` are omitted: no method on the query path reads them. -/
structure EngineState (α : Type) where
  documents : List (String × ℤ)
  documents_inv : List (ℤ × String)
  terms : List (String × ℤ)
  postings : EPostings α
  doc_lengths : List (ℤ × α)
  total_docs : ℕ
deriving Repr, DecidableEq

/-- One entry of the `results` list built by `SearchEngine.search`:
`{'doc_id': …, 'similarity': …, 'doc_path': …}`. -/
structure Result (α : Type) where
  doc_id : ℤ
  similarity : α
  doc_path : String
deriving Repr, DecidableEq

/-- `SearchEngine.parse_query`: tokenize/normalize/filter/stem via the
collaborator pipeline `pipe`, keep the term ids of tokens present in the
term table (absent terms are only reported), in query order. -/
def parse_query (pipe : String → List String) (terms : List (String × ℤ))
    (query : String) : List ℤ :=
  (pipe query).filterMap fun tok => lookup? tok terms

/-- The intersection loop of `get_documents_with_all_terms` over the terms
after the first: `candidate_docs.intersection(term_docs)` when the term id
is a key of `self.postings`, otherwise return the empty set at once. -/
def interAll {α : Type} (ps : EPostings α) : List ℤ → Finset ℤ → Finset ℤ
  | [], acc => acc
  | t :: rest, acc =>
    if (lookup? t ps).isSome then
      interAll ps rest (acc ∩ (keysOf (lookupD ps t [])).toFinset)
    else ∅

/-- `SearchEngine.get_documents_with_all_terms`.  `self.postings` is a
`defaultdict(dict)`, so reading `self.postings[first_term_id]` on line 150
inserts an empty inner dict when the first term id is absent — the
function therefore returns the (possibly) mutated postings store next to
the candidate set. -/
def get_documents_with_all_terms {α : Type} (ps : EPostings α)
    (parsed : List ℤ) : EPostings α × Finset ℤ :=
  match parsed with
  | [] => (ps, ∅)
  | t :: rest =>
    let ps' := if (lookup? t ps).isSome then ps else ps ++ [(t, [])]
    let c0 := (keysOf (lookupD ps' t [])).toFinset
    (ps', interAll ps' rest c0)

/-- `SearchEngine.build_query_vector`: accumulate query term frequencies,
then for each distinct term id that is a key of the postings store set the
weight `tf * idf` with `idf = log(N / df) if df > 0 else 0`, where `df` is
recomputed as the size of the term's posting dict and `N = total_docs`. -/
def build_query_vector {α : Type} [LinearOrderedField α] (lg : α → α)
    (ps : EPostings α) (N : ℕ) (parsed : List ℤ) : List (ℤ × α) :=
  (freqList parsed).filterMap fun p =>
    if (lookup? p.1 ps).isSome then
      let df : ℕ := (lookupD ps p.1 []).length
      let idf : α := if 0 < df then lg ((N : α) / (df : α)) else 0
      some (p.1, (p.2 : α) * idf)
    else none

/-- `query_length = math.sqrt(sum(w * w for w in query_vector.values()))`. -/
def queryLength {α : Type} [LinearOrderedField α] (sq : α → α)
    (qv : List (ℤ × α)) : α :=
  sq ((qv.map fun p => p.2 * p.2).sum)

/-- The dot-product loop of `SearchEngine.search`: the document's sparse
vector holds, for each query term id, the stored `tf_idf` when the
document has a posting for it, and the dot product sums
`q_weight * tf_idf` over those terms. -/
def dotProduct {α : Type} [LinearOrderedField α] (qv : List (ℤ × α))
    (ps : EPostings α) (d : ℤ) : α :=
  (qv.map fun p =>
    match lookup? d (lookupD ps p.1 []) with
    | some pd => p.2 * pd.tf_idf
    | none => 0).sum

/-- The per-candidate similarity computed by `SearchEngine.search`:
`doc_length = self.doc_lengths.get(doc_id, 1.0)`, and
`similarity = dot_product / (doc_length * query_length)` when both are
positive, else `0`. -/
def similarityOf {α : Type} [LinearOrderedField α] (qv : List (ℤ × α))
    (ps : EPostings α) (lens : List (ℤ × α)) (ql : α) (d : ℤ) : α :=
  let dl := lookupD lens d 1
  if 0 < dl ∧ 0 < ql then dotProduct qv ps d / (dl * ql) else 0

/-- The `for doc_id in candidate_docs:` loop of `SearchEngine.search`:
iterate the candidate set (in the set's iteration order, supplied here as
the list `order`), and append a result exactly when the similarity is
strictly positive.  `doc_path` is `self.documents_inv[doc_id]` (the source
would raise a `KeyError` for an id missing from `documents_inv`; the model
returns `""` there, a case no claim depends on). -/
def searchResultsRaw {α : Type} [LinearOrderedField α] (qv : List (ℤ × α))
    (ps : EPostings α) (lens : List (ℤ × α)) (dinv : List (ℤ × String))
    (ql : α) (order : List ℤ) : List (Result α) :=
  order.filterMap fun d =>
    let sim := similarityOf qv ps lens ql d
    if 0 < sim then some ⟨d, sim, lookupD dinv d ""⟩ else none

/-- Stable descending insertion of a result into an already descending
list: the new element goes after every element whose similarity is at
least its own, which is exactly the observable behaviour of Python's
stable `list.sort(key=lambda x: x['similarity'], reverse=True)`. -/
def insertBySim {α : Type} [LinearOrderedField α] (r : Result α) :
    List (Result α) → List (Result α)
  | [] => [r]
  | s :: rest => if r.similarity ≤ s.similarity then s :: insertBySim r rest
                 else r :: s :: rest

/-- Stable sort by similarity, descending (Python
`results.sort(key=lambda x: x['similarity'], reverse=True)`). -/
def sortBySim {α : Type} [LinearOrderedField α] (l : List (Result α)) :
    List (Result α) :=
  l.foldl (fun acc r => insertBySim r acc) []

/-- `SearchEngine.search(query, top_k)`.  Returns the engine state after
the call (the query path can mutate `self.postings`, see
`get_documents_with_all_terms`) together with the returned ranked list.
`order` is the iteration order of the Python set `candidate_docs`,
which CPython determines from its hash table layout; theorems quantify
over it or constrain it to enumerate the candidate set. -/
def search {α : Type} [LinearOrderedField α] (lg sq : α → α)
    (pipe : String → List String) (st : EngineState α) (query : String)
    (k : ℕ) (order : List ℤ) : EngineState α × List (Result α) :=
  let parsed := parse_query pipe st.terms query
  if parsed = [] then (st, [])
  else
    let pc := get_documents_with_all_terms st.postings parsed
    let st' := { st with postings := pc.1 }
    if pc.2 = ∅ then (st', [])
    else
      let qv := build_query_vector lg pc.1 st.total_docs parsed
      let ql := queryLength sq qv
      if ql = 0 then (st', [])
      else
        (st', (sortBySim (searchResultsRaw qv pc.1 st.doc_lengths
          st.documents_inv ql order)).take k)

/-! ## Persistence (IndexerFixed.save_index / SearchEngine.load_index)

A persisted table is modelled as a list of records, and a record as the
list of its comma-separated fields (this models `line.strip().split(',')`
exactly whenever no field holds a comma or surrounding whitespace; saved
numbers never do, and the round-trip theorems hypothesise comma-free
paths and terms). -/

/-- The decimal digit character for a digit below 10. -/
def digitChar (d : ℕ) : Char := Char.ofNat (48 + d)

/-- Inverse of `digitChar` on actual digit characters. -/
def charDigit? (c : Char) : Option ℕ :=
  if 48 ≤ c.toNat ∧ c.toNat ≤ 57 then some (c.toNat - 48) else none

/-- Decimal rendering of a natural number, most significant digit first
(Python `str(n)` / `f"{n}"`). -/
def natToChars (n : ℕ) : List Char :=
  if n = 0 then ['0'] else ((Nat.digits 10 n).map digitChar).reverse

/-- Left-to-right decimal accumulation: the value of a digit string. -/
def parseDigitsAux : List Char → ℕ → Option ℕ
  | [], acc => some acc
  | c :: rest, acc =>
    match charDigit? c with
    | some d => parseDigitsAux rest (acc * 10 + d)
    | none => none

/-- Python `int` on a nonempty string of decimal digits (its tolerance for
surrounding whitespace, a leading `+` and underscores is not modelled; no
saved record uses those forms). -/
def parseNatChars : List Char → Option ℕ
  | [] => none
  | l => parseDigitsAux l 0

/-- Python `int` including a leading minus sign. -/
def parseIntChars (l : List Char) : Option ℤ :=
  if l.head? = some '-' then (parseNatChars l.tail).map fun n => -(n : ℤ)
  else (parseNatChars l).map fun n => (n : ℤ)

/-- `int(field)` in `load_index`. -/
def parseInt? (s : String) : Option ℤ := parseIntChars s.data

/-- Split a character list at its first dot, if any. -/
def splitDot : List Char → List Char × Option (List Char)
  | [] => ([], none)
  | c :: rest =>
    if c = '.' then ([], some rest)
    else
      let r := splitDot rest
      (c :: r.1, r.2)

/-- Python `float` on an unsigned fixed-point literal: digits, optionally
a dot and further digits; `"1."` and `".5"` parse, `"."` and `""` do not
(exponent, `inf` and `nan` forms are not modelled; no saved record uses
them). -/
def parseFloatCore (l : List Char) : Option ℚ :=
  match splitDot l with
  | (ip, none) => (parseNatChars ip).map fun n => (n : ℚ)
  | ([], some []) => none
  | (ip, some fp) => do
    let i ← parseDigitsAux ip 0
    let f ← parseDigitsAux fp 0
    pure ((i : ℚ) + (f : ℚ) / (10 : ℚ) ^ fp.length)

/-- `float(field)` in `load_index`, including a leading minus sign. -/
def parseFloat? (s : String) : Option ℚ :=
  if s.data.head? = some '-' then (parseFloatCore s.data.tail).map Neg.neg
  else parseFloatCore s.data

/-- Left-pad a digit string with zeros to the 6 fractional digits that
`"%.6f"` always emits. -/
def pad6 (l : List Char) : List Char := List.replicate (6 - l.length) '0' ++ l

/-- The fixed-point rendering with 6 fractional digits of `n / 10^6`
(`n` an integer). -/
def decimal6 (n : ℤ) : List Char :=
  (if n < 0 then ['-'] else []) ++
    natToChars (n.natAbs / 1000000) ++ '.' :: pad6 (natToChars (n.natAbs % 1000000))

/-- `f"{x:.6f}"` on an idealized float: render `x` rounded to 6 fractional
decimal digits.  (Python rounds ties to even; the model rounds half up —
the difference is immaterial to every claim.) -/
noncomputable def format6 (x : ℝ) : String := String.mk (decimal6 (round (x * 1000000)))

/-- The rational a float reconstructed from the `"%.6f"` rendering of `x`
denotes: `x` rounded at 6 fractional decimal digits. -/
noncomputable def round6 (x : ℝ) : ℚ := ((round (x * 1000000) : ℤ) : ℚ) / 1000000

/-- `str(n)` for the integer ids written by `save_index`. -/
def natStr (n : ℕ) : String := String.mk (natToChars n)

/-- `save_index`: one record `f"{doc_path},{doc_id}"` per documents entry,
in dict iteration order. -/
def saveDocuments (docs : List (String × ℕ)) : List (List String) :=
  docs.map fun e => [e.1, natStr e.2]

/-- `save_index`: one record `f"{term},{term_id}"` per terms entry. -/
def saveTerms (terms : List (String × ℕ)) : List (List String) :=
  terms.map fun e => [e.1, natStr e.2]

/-- `save_index`: one record
`f"{term_id},{doc_id},{tf_idf:.6f},{tf},{idf:.6f},{df}"` per posting.
On a finalized store every field is present, so the `.get(…, 0)` defaults
of the source never fire. -/
noncomputable def savePostings (ps : Postings ℝ) : List (List String) :=
  ps.flatMap fun e => e.2.map fun q =>
    [natStr e.1, natStr q.1, format6 q.2.tf_idf, natStr q.2.tf,
     format6 q.2.idf, natStr q.2.df]

/-- `save_index`: one record `f"{doc_id},{length:.6f}"` per document. -/
noncomputable def saveLengths (lens : List (ℕ × ℝ)) : List (List String) :=
  lens.map fun e => [natStr e.1, format6 e.2]

/-- Fold a fallible step over the records of one table; the first failing
record raises (Python `ValueError` inside the `try`), aborting the load. -/
def foldM? {σ ρ : Type} (f : σ → ρ → Option σ) : List ρ → σ → Option σ
  | [], acc => some acc
  | r :: rest, acc =>
    match f acc r with
    | some acc' => foldM? f rest acc'
    | none => none

/-- One documents.dat record:
`doc_path, doc_id = line.strip().split(','); doc_id = int(doc_id)` and the
two dict insertions. -/
def loadDocsStep (acc : List (String × ℤ) × List (ℤ × String)) (r : List String) :
    Option (List (String × ℤ) × List (ℤ × String)) :=
  match r with
  | [p, istr] => (parseInt? istr).map fun i => (upsert p i acc.1, upsert i p acc.2)
  | _ => none

/-- The documents.dat loading loop. -/
def loadDocs (rs : List (List String)) :
    Option (List (String × ℤ) × List (ℤ × String)) :=
  foldM? loadDocsStep rs ([], [])

/-- One terms.dat record (the unused `terms_inv` table is not modelled). -/
def loadTermsStep (acc : List (String × ℤ)) (r : List String) :
    Option (List (String × ℤ)) :=
  match r with
  | [t, istr] => (parseInt? istr).map fun i => upsert t i acc
  | _ => none

/-- One postings.dat record: six fields parsed as
`int, int, float, int, float, int` and upserted into the nested store. -/
def loadPostingsStep (acc : EPostings ℚ) (r : List String) :
    Option (EPostings ℚ) :=
  match r with
  | [tstr, dstr, wstr, tfstr, istr, dfstr] => do
    let t ← parseInt? tstr
    let d ← parseInt? dstr
    let w ← parseFloat? wstr
    let tf ← parseInt? tfstr
    let idf ← parseFloat? istr
    let df ← parseInt? dfstr
    pure (upsert t (upsert d ⟨w, tf, idf, df⟩ (lookupD acc t [])) acc)
  | _ => none

/-- One doc_lengths.dat record. -/
def loadLengthsStep (acc : List (ℤ × ℚ)) (r : List String) :
    Option (List (ℤ × ℚ)) :=
  match r with
  | [dstr, lstr] => do
    let d ← parseInt? dstr
    let x ← parseFloat? lstr
    pure (upsert d x acc)
  | _ => none

/-- `SearchEngine.load_index`: read the four tables in order.  A missing
file (`none`) or an unparsable record raises inside the `try` block; the
`except` clause reports failure (modelled as `none`) — the constructor
ignores that flag, but no claim needs the partially-populated object.  On
success `total_docs = len(self.documents)`.  Note that the function
performs no cross-table referential check of any kind, and never touches
the tokenizer or stemmer. -/
def load_index (docsT termsT postsT lensT : Option (List (List String))) :
    Option (EngineState ℚ) :=
  match docsT with
  | none => none
  | some drs =>
    match loadDocs drs with
    | none => none
    | some di =>
      match termsT with
      | none => none
      | some trs =>
        match foldM? loadTermsStep trs [] with
        | none => none
        | some tm =>
          match postsT with
          | none => none
          | some prs =>
            match foldM? loadPostingsStep prs [] with
            | none => none
            | some ps =>
              match lensT with
              | none => none
              | some lrs =>
                match foldM? loadLengthsStep lrs [] with
                | none => none
                | some ls => some ⟨di.1, di.2, tm, ps, ls, di.1.length⟩

/-- Syntactic well-formedness of one documents.dat (or terms.dat) record
under the loader: exactly two comma-separated fields, the second an
integer literal.  Note that this is a purely per-record condition: the
loader never relates a record to the other tables. -/
def docRecordOK : List String → Prop
  | [_, istr] => (parseInt? istr).isSome
  | _ => False

/-- Syntactic well-formedness of one postings.dat record: six fields
parsed as int, int, float, int, float, int. -/
def postingRecordOK : List String → Prop
  | [tstr, dstr, wstr, tfstr, istr, dfstr] =>
    (parseInt? tstr).isSome ∧ (parseInt? dstr).isSome ∧
    (parseFloat? wstr).isSome ∧ (parseInt? tfstr).isSome ∧
    (parseFloat? istr).isSome ∧ (parseInt? dfstr).isSome
  | _ => False

/-- Syntactic well-formedness of one doc_lengths.dat record. -/
def lengthRecordOK : List String → Prop
  | [dstr, lstr] => (parseInt? dstr).isSome ∧ (parseFloat? lstr).isSome
  | _ => False

/-- The finalized in-memory index viewed under the engine's representation
(what a lossless load would produce); used to state the round-trip
property. -/
def engineOf (docs terms : List (String × ℕ)) (ps : Postings ℝ)
    (lens : List (ℕ × ℝ)) : EngineState ℝ :=
  ⟨docs.map fun e => (e.1, (e.2 : ℤ)),
   docs.map fun e => ((e.2 : ℤ), e.1),
   terms.map fun e => (e.1, (e.2 : ℤ)),
   ps.map fun e => ((e.1 : ℤ), e.2.map fun q =>
     ((q.1 : ℤ), ⟨q.2.tf_idf, (q.2.tf : ℤ), q.2.idf, (q.2.df : ℤ)⟩)),
   lens.map fun e => ((e.1 : ℤ), e.2),
   docs.length⟩

/-- Embed a loaded (rational-valued) engine state into the real-valued
engine, to compare searches before saving and after reloading. -/
def castEngine (st : EngineState ℚ) : EngineState ℝ :=
  ⟨st.documents, st.documents_inv, st.terms,
   st.postings.map fun e => (e.1, e.2.map fun q =>
     (q.1, ⟨(q.2.tf_idf : ℝ), q.2.tf, (q.2.idf : ℝ), q.2.df⟩)),
   st.doc_lengths.map fun e => (e.1, (e.2 : ℝ)),
   st.total_docs⟩

/-! ## Concrete fixtures used by examples and counterexamples -/

/-- A degenerate collaborator pipeline for concrete runs: the raw text
survives tokenization, filtering and stemming as one token. -/
def pipeId : String → List String := fun s => [s]

/-- Loaded engine state for the ranking counterexample: three documents
"a"/"b"/"c" with ids 1, 8, 3; one term "t" with id 7, held by documents 1
and 8 with stored weight 1; every document length 1.  (All values are
reachable through `load_index`, which applies no integrity checks.) -/
noncomputable def stC1 : EngineState ℝ :=
  { documents := [("a", 1), ("b", 8), ("c", 3)]
    documents_inv := [(1, "a"), (8, "b"), (3, "c")]
    terms := [("t", 7)]
    postings := [(7, [(1, ⟨1, 1, 0, 2⟩), (8, ⟨1, 1, 0, 2⟩)])]
    doc_lengths := [(1, 1), (8, 1), (3, 1)]
    total_docs := 3 }

/-- Loaded engine state (rational-valued) for witnesses: one document "a"
with id 1, one term "t" with id 7 posted by document 1, length 1. -/
def stQ3 : EngineState ℚ :=
  { documents := [("a", 1)]
    documents_inv := [(1, "a")]
    terms := [("t", 7)]
    postings := [(7, [(1, ⟨1, 1, 0, 1⟩)])]
    doc_lengths := [(1, 1)]
    total_docs := 1 }

/-- Loaded engine state like `stQ3` but with an empty document-length
table, so document 1 has no stored vector norm. -/
def stQ10 : EngineState ℚ :=
  { documents := [("a", 1)]
    documents_inv := [(1, "a")]
    terms := [("t", 7)]
    postings := [(7, [(1, ⟨1, 1, 0, 1⟩)])]
    doc_lengths := []
    total_docs := 1 }

/-- Collaborator pipeline under which every document's text yields the
token "w" three times. -/
def pipeW3 : String → List String := fun _ => ["w", "w", "w"]

/-- The ranking order the spec prescribes: similarity strictly descending,
with exact ties broken by ascending document identifier. -/
def SpecRanked {α : Type} [LinearOrderedField α] (l : List (Result α)) : Prop :=
  List.Pairwise (fun a b => b.similarity < a.similarity ∨
    (a.similarity = b.similarity ∧ a.doc_id < b.doc_id)) l

/-! ## General lemmas about the dictionary model -/

theorem lookup?_isSome_iff {κ β : Type} [DecidableEq κ] (k : κ) :
    ∀ l : List (κ × β), (lookup? k l).isSome ↔ k ∈ keysOf l := by
  intro l
  induction l with
  | nil => simp [lookup?, keysOf]
  | cons p rest ih =>
    by_cases h : p.1 = k
    · simp [lookup?, keysOf, h]
    · simp [lookup?, keysOf, h, ih, Ne.symm h]

theorem lookup?_eq_none_iff {κ β : Type} [DecidableEq κ] (k : κ)
    (l : List (κ × β)) : lookup? k l = none ↔ k ∉ keysOf l := by
  rw [← lookup?_isSome_iff]
  cases lookup? k l <;> simp

theorem lookup?_upsert_self {κ β : Type} [DecidableEq κ] (k : κ) (v : β) :
    ∀ l : List (κ × β), lookup? k (upsert k v l) = some v := by
  intro l
  induction l with
  | nil => simp [upsert, lookup?]
  | cons p rest ih =>
    by_cases h : p.1 = k
    · simp [upsert, h, lookup?]
    · simp [upsert, h, lookup?, ih]

theorem lookup?_upsert_ne {κ β : Type} [DecidableEq κ] {k k' : κ} (v : β)
    (hne : k' ≠ k) :
    ∀ l : List (κ × β), lookup? k' (upsert k v l) = lookup? k' l := by
  intro l
  induction l with
  | nil => simp [upsert, lookup?, Ne.symm hne]
  | cons p rest ih =>
    by_cases h : p.1 = k
    · rw [upsert, if_pos h, lookup?, lookup?, h]
      simp [Ne.symm hne]
    · rw [upsert, if_neg h, lookup?, lookup?, ih]

theorem keysOf_nil {κ β : Type} : keysOf ([] : List (κ × β)) = [] := rfl

theorem keysOf_cons {κ β : Type} (p : κ × β) (rest : List (κ × β)) :
    keysOf (p :: rest) = p.1 :: keysOf rest := rfl

theorem keysOf_append {κ β : Type} (l l' : List (κ × β)) :
    keysOf (l ++ l') = keysOf l ++ keysOf l' := List.map_append _ l l'

theorem mem_keysOf_cons {κ β : Type} {k : κ} {p : κ × β} {rest : List (κ × β)} :
    k ∈ keysOf (p :: rest) ↔ k = p.1 ∨ k ∈ keysOf rest := by
  rw [keysOf_cons, List.mem_cons]

theorem keysOf_upsert_of_mem {κ β : Type} [DecidableEq κ] (k : κ) (v : β) :
    ∀ l : List (κ × β), k ∈ keysOf l → keysOf (upsert k v l) = keysOf l := by
  intro l
  induction l with
  | nil => intro h; exact absurd h (List.not_mem_nil k)
  | cons p rest ih =>
    intro hmem
    by_cases h : p.1 = k
    · rw [upsert, if_pos h, keysOf_cons, keysOf_cons, h]
    · have hk : k ∈ keysOf rest := by
        rcases mem_keysOf_cons.mp hmem with h1 | h1
        · exact absurd h1.symm h
        · exact h1
      rw [upsert, if_neg h, keysOf_cons, keysOf_cons, ih hk]

theorem upsert_of_not_mem {κ β : Type} [DecidableEq κ] (k : κ) (v : β) :
    ∀ l : List (κ × β), k ∉ keysOf l → upsert k v l = l ++ [(k, v)] := by
  intro l
  induction l with
  | nil => intro _; rfl
  | cons p rest ih =>
    intro hmem
    have h1 : ¬ p.1 = k := fun h => hmem (mem_keysOf_cons.mpr (Or.inl h.symm))
    have h2 : k ∉ keysOf rest := fun h => hmem (mem_keysOf_cons.mpr (Or.inr h))
    rw [upsert, if_neg h1, ih h2, List.cons_append]

theorem keysOf_upsert_subset {κ β : Type} [DecidableEq κ] (k : κ) (v : β) :
    ∀ l : List (κ × β), keysOf (upsert k v l) ⊆ k :: keysOf l := by
  intro l
  induction l with
  | nil =>
    intro x hx
    rcases mem_keysOf_cons.mp hx with h1 | h1
    · exact List.mem_cons.mpr (Or.inl h1)
    · exact absurd h1 (List.not_mem_nil x)
  | cons p rest ih =>
    intro x hx
    by_cases h : p.1 = k
    · rw [upsert, if_pos h] at hx
      rcases mem_keysOf_cons.mp hx with h1 | h1
      · exact List.mem_cons.mpr (Or.inl h1)
      · exact List.mem_cons.mpr (Or.inr (mem_keysOf_cons.mpr (Or.inr h1)))
    · rw [upsert, if_neg h] at hx
      rcases mem_keysOf_cons.mp hx with h1 | h1
      · exact List.mem_cons.mpr (Or.inr (mem_keysOf_cons.mpr (Or.inl h1)))
      · rcases List.mem_cons.mp (ih h1) with h2 | h2
        · exact List.mem_cons.mpr (Or.inl h2)
        · exact List.mem_cons.mpr (Or.inr (mem_keysOf_cons.mpr (Or.inr h2)))

theorem keysOf_upsert_nodup {κ β : Type} [DecidableEq κ] (k : κ) (v : β) :
    ∀ l : List (κ × β), (keysOf l).Nodup → (keysOf (upsert k v l)).Nodup := by
  intro l
  induction l with
  | nil => intro _; simp [upsert, keysOf]
  | cons p rest ih =>
    intro hnd
    rw [keysOf_cons, List.nodup_cons] at hnd
    by_cases h : p.1 = k
    · rw [upsert, if_pos h, keysOf_cons, List.nodup_cons]
      exact ⟨by simpa [← h] using hnd.1, hnd.2⟩
    · rw [upsert, if_neg h, keysOf_cons, List.nodup_cons]
      refine ⟨fun hmem => ?_, ih hnd.2⟩
      rcases List.mem_cons.mp (keysOf_upsert_subset k v rest hmem) with h1 | h1
      · exact h h1
      · exact hnd.1 h1

/-! ## C6: duplicate document identifiers -/

/-- C6 (counterexample): processing the same identifier string "a" twice
does not fail and does not keep the original registration — the second
call assigns the fresh id 2 and overwrites the table entry, so afterwards
"a" is mapped to 2, not to its original id 1. -/
theorem c6_counterexample :
    ((process_document_content (fun _ => []) (process_document_content
        (fun _ => []) initIndexer "x" "a").1 "y" "a").1.documents = [("a", 2)] ∧
      (process_document_content (fun _ => []) (process_document_content
        (fun _ => []) initIndexer "x" "a").1 "y" "a").2 = 2) ∧
    lookup? "a" (process_document_content (fun _ => []) (process_document_content
        (fun _ => []) initIndexer "x" "a").1 "y" "a").1.documents ≠ some 1 := by
  decide

/-- C6 (amended): adding a document whose identifier string was already
registered earlier in the same build does not fail: the call assigns the
next fresh document id, overwrites the existing registration for that path
(plain dict assignment), and the set of registered identifier strings is
unchanged. -/
theorem c6_duplicate_document_overwrites (pipe : String → List String)
    (st : IndexerState) (content path : String)
    (h : path ∈ keysOf st.documents) :
    (process_document_content pipe st content path).2 = st.nextDocId ∧
    lookup? path (process_document_content pipe st content path).1.documents
      = some st.nextDocId ∧
    keysOf (process_document_content pipe st content path).1.documents
      = keysOf st.documents := by
  refine ⟨rfl, ?_, ?_⟩
  · show lookup? path (upsert path st.nextDocId st.documents) = some st.nextDocId
    exact lookup?_upsert_self path st.nextDocId st.documents
  · show keysOf (upsert path st.nextDocId st.documents) = keysOf st.documents
    exact keysOf_upsert_of_mem path st.nextDocId st.documents h

/-- C6 (witness for the amended theorem): concrete duplicate insertion. -/
theorem c6_witness :
    "a" ∈ keysOf (process_document_content (fun _ => []) initIndexer "x" "a").1.documents ∧
    ((process_document_content (fun _ => []) (process_document_content
        (fun _ => []) initIndexer "x" "a").1 "y" "a").2
      = (process_document_content (fun _ => []) initIndexer "x" "a").1.nextDocId ∧
      lookup? "a" (process_document_content (fun _ => []) (process_document_content
        (fun _ => []) initIndexer "x" "a").1 "y" "a").1.documents
        = some (process_document_content (fun _ => []) initIndexer "x" "a").1.nextDocId ∧
      keysOf (process_document_content (fun _ => []) (process_document_content
        (fun _ => []) initIndexer "x" "a").1 "y" "a").1.documents
        = keysOf (process_document_content (fun _ => []) initIndexer "x" "a").1.documents) :=
  ⟨by decide, c6_duplicate_document_overwrites (fun _ => []) _ "y" "a" (by decide)⟩

/-! ## C8: the query path and shared state -/

/-- C8 (counterexample): a loadable engine state whose term table maps
"foo" to id 5 while the postings store has no entry for 5 (load_index
performs no cross-table check, so such a state is reachable).  Searching
"foo" evaluates `self.postings[5]` on line 150, and since `self.postings`
is a `defaultdict(dict)` this inserts an empty entry: the postings store
is `[]` before the call and `[(5, [])]` after it, so the shared index
state is not identical before and after the search.  The scoring
functions are never reached on this run (the candidate set is empty), so
the instantiation of `lg`/`sq` is irrelevant. -/
theorem c8_counterexample :
    (search (fun _ => (0 : ℚ)) (fun x => x) (fun q => [q])
        ⟨[("a", 1)], [(1, "a")], [("foo", 5)], [], [(1, 1)], 1⟩
        "foo" 20 []).1.postings = [(5, [])] ∧
    (⟨[("a", 1)], [(1, "a")], [("foo", 5)], [], [(1, 1)], 1⟩ :
        EngineState ℚ).postings = [] := by
  decide

/-- C8 (amended): no operation on the query path mutates the document
table, the inverse document table, the term table, the document-length
table or the document count; the postings store is also left unchanged
except in one case: when the first parsed query term's id has no entry in
the postings store, candidate filtering's defaultdict access appends an
empty postings entry for it. -/
theorem c8_query_path_mutation {α : Type} [LinearOrderedField α]
    (lg sq : α → α) (pipe : String → List String) (st : EngineState α)
    (query : String) (k : ℕ) (order : List ℤ) :
    (search lg sq pipe st query k order).1.documents = st.documents ∧
    (search lg sq pipe st query k order).1.documents_inv = st.documents_inv ∧
    (search lg sq pipe st query k order).1.terms = st.terms ∧
    (search lg sq pipe st query k order).1.doc_lengths = st.doc_lengths ∧
    (search lg sq pipe st query k order).1.total_docs = st.total_docs ∧
    ((search lg sq pipe st query k order).1.postings = st.postings ∨
      ∃ t, t ∈ parse_query pipe st.terms query ∧ lookup? t st.postings = none ∧
        (search lg sq pipe st query k order).1.postings = st.postings ++ [(t, [])]) := by
  by_cases h0 : parse_query pipe st.terms query = []
  · simp [search, h0]
  · have hpost : (search lg sq pipe st query k order).1.postings
        = (get_documents_with_all_terms st.postings
            (parse_query pipe st.terms query)).1 ∧
        (search lg sq pipe st query k order).1.documents = st.documents ∧
        (search lg sq pipe st query k order).1.documents_inv = st.documents_inv ∧
        (search lg sq pipe st query k order).1.terms = st.terms ∧
        (search lg sq pipe st query k order).1.doc_lengths = st.doc_lengths ∧
        (search lg sq pipe st query k order).1.total_docs = st.total_docs := by
      simp only [search, h0, if_false]
      split
      · exact ⟨rfl, rfl, rfl, rfl, rfl, rfl⟩
      · split
        · exact ⟨rfl, rfl, rfl, rfl, rfl, rfl⟩
        · exact ⟨rfl, rfl, rfl, rfl, rfl, rfl⟩
    obtain ⟨hp, h1, h2, h3, h4, h5⟩ := hpost
    refine ⟨h1, h2, h3, h4, h5, ?_⟩
    obtain ⟨t, rest, hcons⟩ : ∃ t rest, parse_query pipe st.terms query = t :: rest := by
      cases hq : parse_query pipe st.terms query with
      | nil => exact absurd hq h0
      | cons a l => exact ⟨a, l, rfl⟩
    rw [hp, hcons, get_documents_with_all_terms]
    by_cases hs : (lookup? t st.postings).isSome
    · left; simp [hs]
    · right
      refine ⟨t, ?_, Option.not_isSome_iff_eq_none.mp hs, ?_⟩
      · exact hcons ▸ List.mem_cons_self t rest
      · simp [hs]

/-! ## C2: conjunctive candidate filtering -/

theorem lookup?_append {κ β : Type} [DecidableEq κ] (k : κ) :
    ∀ l l' : List (κ × β),
      lookup? k (l ++ l') = (lookup? k l).or (lookup? k l') := by
  intro l l'
  induction l with
  | nil => simp [lookup?]
  | cons p rest ih =>
    by_cases h : p.1 = k
    · simp [lookup?, h]
    · simp [lookup?, h, ih]

/-- Appending an empty postings entry never changes the inner dict that a
lookup with default `[]` observes. -/
theorem lookupD_append_empty {α : Type} (ps : EPostings α) (t u : ℤ) :
    lookupD (ps ++ [(t, [])]) u [] = lookupD ps u [] := by
  rw [lookupD, lookupD, lookup?_append]
  cases h : lookup? u ps with
  | some l => rfl
  | none =>
    by_cases ht : t = u
    · simp [lookup?, ht]
    · simp [lookup?, ht]

/-- Membership in the intersection loop of `get_documents_with_all_terms`. -/
theorem mem_interAll {α : Type} (ps : EPostings α) (d : ℤ) :
    ∀ (rest : List ℤ) (acc : Finset ℤ),
      d ∈ interAll ps rest acc ↔
        d ∈ acc ∧ ∀ t ∈ rest, d ∈ keysOf (lookupD ps t []) := by
  intro rest
  induction rest with
  | nil => intro acc; simp [interAll]
  | cons t ts ih =>
    intro acc
    by_cases h : (lookup? t ps).isSome
    · rw [interAll, if_pos h, ih]
      simp only [Finset.mem_inter, List.mem_toFinset, List.forall_mem_cons]
      tauto
    · rw [interAll, if_neg h]
      have hnone : lookupD ps t [] = [] := by
        rw [lookupD, Option.not_isSome_iff_eq_none.mp h]; rfl
      simp [hnone, keysOf]

/-- Membership in the candidate set, stated over the unmutated postings
store (the defaultdict insertion of an empty entry for the first term does
not change what any lookup with default `[]` observes). -/
theorem mem_candidates {α : Type} (ps : EPostings α) (parsed : List ℤ)
    (hne : parsed ≠ []) (d : ℤ) :
    d ∈ (get_documents_with_all_terms ps parsed).2 ↔
      ∀ t ∈ parsed, d ∈ keysOf (lookupD ps t []) := by
  obtain ⟨t, rest, hcons⟩ : ∃ t rest, parsed = t :: rest := by
    cases hq : parsed with
    | nil => exact absurd hq hne
    | cons a l => exact ⟨a, l, rfl⟩
  subst hcons
  rw [get_documents_with_all_terms]
  by_cases h : (lookup? t ps).isSome
  · rw [if_pos h]
    simp only [mem_interAll, List.mem_toFinset, List.forall_mem_cons]
  · rw [if_neg h]
    have heq : ∀ u, keysOf (lookupD (ps ++ [(t, [])]) u [])
        = keysOf (lookupD ps u []) := fun u => by rw [lookupD_append_empty]
    simp only [mem_interAll, List.mem_toFinset, List.forall_mem_cons, heq]

/-- C2: a document is a candidate iff it holds a posting for every parsed
(surviving) query term; if some surviving term has no postings at all the
candidate set is empty; and the candidate set is invariant under
permutation of the query terms. -/
theorem c2_conjunctive_filtering {α : Type} (ps : EPostings α)
    (parsed : List ℤ) (hne : parsed ≠ []) :
    (∀ d : ℤ, d ∈ (get_documents_with_all_terms ps parsed).2 ↔
      ∀ t ∈ parsed, d ∈ keysOf (lookupD ps t [])) ∧
    (∀ t ∈ parsed, lookupD ps t [] = [] →
      (get_documents_with_all_terms ps parsed).2 = ∅) ∧
    (∀ parsed' : List ℤ, parsed'.Perm parsed →
      (get_documents_with_all_terms ps parsed').2
        = (get_documents_with_all_terms ps parsed).2) := by
  refine ⟨mem_candidates ps parsed hne, ?_, ?_⟩
  · intro t ht hempty
    ext d
    simp only [Finset.not_mem_empty, iff_false]
    intro hd
    have := (mem_candidates ps parsed hne d).mp hd t ht
    rw [hempty] at this
    exact absurd this (List.not_mem_nil d)
  · intro parsed' hperm
    have hne' : parsed' ≠ [] := by
      intro h
      rw [h] at hperm
      exact hne (hperm.symm.eq_nil ▸ rfl)
    ext d
    rw [mem_candidates ps parsed' hne' d, mem_candidates ps parsed hne d]
    exact ⟨fun h t ht => h t (hperm.mem_iff.mpr ht),
      fun h t ht => h t (hperm.mem_iff.mp ht)⟩

/-- C2 (witness): the conjunctive-filtering theorem at a one-term query
over a one-document postings store. -/
theorem c2_witness :
    ([7] : List ℤ) ≠ [] ∧
    ((∀ d : ℤ, d ∈ (get_documents_with_all_terms
        ([(7, [(1, ⟨1, 1, 0, 2⟩)])] : EPostings ℚ) [7]).2 ↔
      ∀ t ∈ ([7] : List ℤ),
        d ∈ keysOf (lookupD ([(7, [(1, ⟨1, 1, 0, 2⟩)])] : EPostings ℚ) t [])) ∧
    (∀ t ∈ ([7] : List ℤ),
      lookupD ([(7, [(1, ⟨1, 1, 0, 2⟩)])] : EPostings ℚ) t [] = [] →
      (get_documents_with_all_terms
        ([(7, [(1, ⟨1, 1, 0, 2⟩)])] : EPostings ℚ) [7]).2 = ∅) ∧
    (∀ parsed' : List ℤ, parsed'.Perm [7] →
      (get_documents_with_all_terms
        ([(7, [(1, ⟨1, 1, 0, 2⟩)])] : EPostings ℚ) parsed').2
        = (get_documents_with_all_terms
        ([(7, [(1, ⟨1, 1, 0, 2⟩)])] : EPostings ℚ) [7]).2)) :=
  ⟨by decide, c2_conjunctive_filtering _ [7] (by decide)⟩

/-! ## Sorting lemmas (the stable descending sort of search) -/

theorem mem_insertBySim {α : Type} [LinearOrderedField α] (r x : Result α) :
    ∀ l : List (Result α), x ∈ insertBySim r l ↔ x = r ∨ x ∈ l := by
  intro l
  induction l with
  | nil => simp [insertBySim]
  | cons s rest ih =>
    by_cases h : r.similarity ≤ s.similarity
    · rw [insertBySim, if_pos h]
      simp only [List.mem_cons, ih]
      try tauto
    · rw [insertBySim, if_neg h]
      simp only [List.mem_cons]
      try tauto

theorem insertBySim_sorted {α : Type} [LinearOrderedField α] (r : Result α) :
    ∀ l : List (Result α),
      List.Pairwise (fun a b => b.similarity ≤ a.similarity) l →
      List.Pairwise (fun a b => b.similarity ≤ a.similarity) (insertBySim r l) := by
  intro l
  induction l with
  | nil => intro _; simp [insertBySim]
  | cons s rest ih =>
    intro hp
    rw [List.pairwise_cons] at hp
    by_cases h : r.similarity ≤ s.similarity
    · rw [insertBySim, if_pos h, List.pairwise_cons]
      refine ⟨fun x hx => ?_, ih hp.2⟩
      rcases (mem_insertBySim r x rest).mp hx with h1 | h1
      · rw [h1]; exact h
      · exact hp.1 x h1
    · rw [insertBySim, if_neg h, List.pairwise_cons]
      refine ⟨fun x hx => ?_, List.pairwise_cons.mpr hp⟩
      rcases List.mem_cons.mp hx with h1 | h1
      · rw [h1]; exact le_of_lt (lt_of_not_le h)
      · exact le_trans (hp.1 x h1) (le_of_lt (lt_of_not_le h))

theorem sortBySim_sorted_aux {α : Type} [LinearOrderedField α] :
    ∀ (l acc : List (Result α)),
      List.Pairwise (fun a b => b.similarity ≤ a.similarity) acc →
      List.Pairwise (fun a b => b.similarity ≤ a.similarity)
        (l.foldl (fun acc r => insertBySim r acc) acc) := by
  intro l
  induction l with
  | nil => intro acc h; exact h
  | cons r rest ih =>
    intro acc h
    exact ih (insertBySim r acc) (insertBySim_sorted r acc h)

/-- The output of the stable sort is ordered by similarity, descending. -/
theorem sortBySim_sorted {α : Type} [LinearOrderedField α]
    (l : List (Result α)) :
    List.Pairwise (fun a b => b.similarity ≤ a.similarity) (sortBySim l) :=
  sortBySim_sorted_aux l [] List.Pairwise.nil

theorem insertBySim_perm {α : Type} [LinearOrderedField α] (r : Result α) :
    ∀ l : List (Result α), (insertBySim r l).Perm (r :: l) := by
  intro l
  induction l with
  | nil => rfl
  | cons s rest ih =>
    by_cases h : r.similarity ≤ s.similarity
    · rw [insertBySim, if_pos h]
      exact (ih.cons s).trans (List.Perm.swap r s rest)
    · rw [insertBySim, if_neg h]

theorem sortBySim_perm_aux {α : Type} [LinearOrderedField α] :
    ∀ (l acc : List (Result α)),
      (l.foldl (fun acc r => insertBySim r acc) acc).Perm (acc ++ l) := by
  intro l
  induction l with
  | nil => intro acc; simp
  | cons r rest ih =>
    intro acc
    refine (ih (insertBySim r acc)).trans ?_
    have h1 : (insertBySim r acc ++ rest).Perm ((r :: acc) ++ rest) :=
      (insertBySim_perm r acc).append_right rest
    refine h1.trans ?_
    have h2 : ((r :: acc) ++ rest).Perm (acc ++ (r :: rest)) := by
      exact List.perm_middle.symm
    exact h2

/-- The sort is a permutation of its input. -/
theorem sortBySim_perm {α : Type} [LinearOrderedField α]
    (l : List (Result α)) : (sortBySim l).Perm l := by
  simpa using sortBySim_perm_aux l []

/-! ## C1: ranking order and truncation -/

/-- C1 (amended): for every query, limit and candidate iteration order,
the result list returned by search is sorted by similarity in descending
order and holds at most k entries.  The relative order of results with
exactly equal similarities is the candidate set's iteration order as left
by the stable sort — the code has no tie-break on document identifiers
(see the counterexample). -/
theorem c1_ranking {α : Type} [LinearOrderedField α] (lg sq : α → α)
    (pipe : String → List String) (st : EngineState α) (query : String)
    (k : ℕ) (order : List ℤ) :
    List.Pairwise (fun a b => b.similarity ≤ a.similarity)
      (search lg sq pipe st query k order).2 ∧
    (search lg sq pipe st query k order).2.length ≤ k := by
  by_cases h0 : parse_query pipe st.terms query = []
  · simp [search, h0]
  · simp only [search, h0, if_false]
    split
    · exact ⟨List.Pairwise.nil, Nat.zero_le k⟩
    · split
      · exact ⟨List.Pairwise.nil, Nat.zero_le k⟩
      · constructor
        · exact (sortBySim_sorted _).sublist (List.take_sublist k _)
        · exact List.length_take_le k _

/-- C1 (counterexample): the claimed tie-break by ascending document
identifier does not exist in the code.  On `stC1`, the query "t" makes
documents 1 and 8 candidates with exactly equal similarity 1.  The
candidate set is the Python set {1, 8}; CPython's hash table for small
integers stores 8 at slot 0 and 1 at slot 1 of an 8-slot table, so the
set iterates as 8, 1 — a genuine iteration order of the candidate set, as
certified by the Nodup/toFinset conjuncts.  The sort key is similarity
alone, and Python's sort is stable, so search returns document 8 before
document 1: similarity is tied and the identifiers are descending, which
falsifies the claimed ranking order. -/
theorem c1_counterexample :
    ([8, 1] : List ℤ).Nodup ∧
    ([8, 1] : List ℤ).toFinset
      = (get_documents_with_all_terms stC1.postings
          (parse_query pipeId stC1.terms "t")).2 ∧
    (search Real.log Real.sqrt pipeId stC1 "t" 20 [8, 1]).2
      = [⟨8, 1, "b"⟩, ⟨1, 1, "a"⟩] ∧
    ¬ SpecRanked (search Real.log Real.sqrt pipeId stC1 "t" 20 [8, 1]).2 := by
  have h0 : (0:ℝ) ≤ Real.log (3 / 2) := Real.log_nonneg (by norm_num)
  have hpos : (0:ℝ) < Real.log (3 / 2) := Real.log_pos (by norm_num)
  have hne : Real.log (3 / 2) ≠ 0 := ne_of_gt hpos
  have hres : (search Real.log Real.sqrt pipeId stC1 "t" 20 [8, 1]).2
      = [⟨8, 1, "b"⟩, ⟨1, 1, "a"⟩] := by
    norm_num [search, parse_query, pipeId, get_documents_with_all_terms, interAll,
      build_query_vector, freqList, bump, queryLength, searchResultsRaw,
      similarityOf, dotProduct, sortBySim, insertBySim, lookup?, lookupD, keysOf,
      stC1, List.filterMap_cons, List.filterMap_nil,
      Real.sqrt_mul_self h0, hpos, hne, div_self hne]
  refine ⟨by decide, ?_, hres, ?_⟩
  · have hq : parse_query pipeId stC1.terms "t" = [7] := rfl
    rw [hq]
    simp [get_documents_with_all_terms, interAll, lookup?, lookupD, keysOf, stC1]
    decide
  · rw [hres]
    simp [SpecRanked]

/-! ## C3: cosine scoring -/

/-- Characterization of the entries of the `results` list built by the
scoring loop of `SearchEngine.search`. -/
theorem mem_searchResultsRaw {α : Type} [LinearOrderedField α]
    (qv : List (ℤ × α)) (ps : EPostings α) (lens : List (ℤ × α))
    (dinv : List (ℤ × String)) (ql : α) (order : List ℤ) (r : Result α) :
    r ∈ searchResultsRaw qv ps lens dinv ql order ↔
      ∃ d ∈ order, 0 < similarityOf qv ps lens ql d ∧
        r = ⟨d, similarityOf qv ps lens ql d, lookupD dinv d ""⟩ := by
  rw [searchResultsRaw, List.mem_filterMap]
  constructor
  · rintro ⟨d, hd, hf⟩
    by_cases h : 0 < similarityOf qv ps lens ql d
    · rw [if_pos h] at hf
      exact ⟨d, hd, h, (Option.some_inj.mp hf).symm⟩
    · rw [if_neg h] at hf
      exact absurd hf (by simp)
  · rintro ⟨d, hd, h, hr⟩
    exact ⟨d, hd, by rw [if_pos h, hr]⟩

/-- A result of positive similarity was computed in the then-branch of the
`doc_length > 0 and query_length > 0` conditional, so its similarity is
the dot product divided by `doc_length * query_length`. -/
theorem similarityOf_pos_eq {α : Type} [LinearOrderedField α]
    (qv : List (ℤ × α)) (ps : EPostings α) (lens : List (ℤ × α)) (ql : α)
    (d : ℤ) (h : 0 < similarityOf qv ps lens ql d) :
    similarityOf qv ps lens ql d
      = dotProduct qv ps d / (lookupD lens d 1 * ql) ∧
    0 < lookupD lens d 1 ∧ 0 < ql := by
  by_cases hc : 0 < lookupD lens d 1 ∧ 0 < ql
  · exact ⟨by rw [similarityOf, if_pos hc], hc⟩
  · rw [similarityOf, if_neg hc] at h
    exact absurd h (lt_irrefl 0)

/-- C3: every document in the result list of search has strictly positive
similarity, equal to the dot product of the query vector with the
document's tf-idf sub-vector restricted to the query terms, divided by
(stored document norm × query norm); a query whose vector norm is zero
yields no results at all, and a candidate whose stored norm is zero is
excluded from the results. -/
theorem c3_scoring {α : Type} [LinearOrderedField α] (lg sq : α → α)
    (pipe : String → List String) (st : EngineState α) (query : String)
    (k : ℕ) (order : List ℤ) :
    (∀ r ∈ (search lg sq pipe st query k order).2,
      0 < r.similarity ∧
      r.similarity =
        dotProduct
          (build_query_vector lg
            (get_documents_with_all_terms st.postings
              (parse_query pipe st.terms query)).1
            st.total_docs (parse_query pipe st.terms query))
          (get_documents_with_all_terms st.postings
            (parse_query pipe st.terms query)).1 r.doc_id
        / (lookupD st.doc_lengths r.doc_id 1 *
            queryLength sq
              (build_query_vector lg
                (get_documents_with_all_terms st.postings
                  (parse_query pipe st.terms query)).1
                st.total_docs (parse_query pipe st.terms query)))) ∧
    (queryLength sq
        (build_query_vector lg
          (get_documents_with_all_terms st.postings
            (parse_query pipe st.terms query)).1
          st.total_docs (parse_query pipe st.terms query)) = 0 →
      (search lg sq pipe st query k order).2 = []) ∧
    (∀ d : ℤ, lookupD st.doc_lengths d 1 = 0 →
      ∀ r ∈ (search lg sq pipe st query k order).2, r.doc_id ≠ d) := by
  by_cases h0 : parse_query pipe st.terms query = []
  · refine ⟨?_, ?_, ?_⟩ <;> simp [search, h0]
  · by_cases h1 : (get_documents_with_all_terms st.postings
        (parse_query pipe st.terms query)).2 = ∅
    · refine ⟨?_, ?_, ?_⟩ <;> simp [search, h0, h1]
    · by_cases h2 : queryLength sq
          (build_query_vector lg
            (get_documents_with_all_terms st.postings
              (parse_query pipe st.terms query)).1
            st.total_docs (parse_query pipe st.terms query)) = 0
      · refine ⟨?_, ?_, ?_⟩ <;> simp [search, h0, h1, h2]
      · have hout : (search lg sq pipe st query k order).2
            = (sortBySim (searchResultsRaw
                (build_query_vector lg
                  (get_documents_with_all_terms st.postings
                    (parse_query pipe st.terms query)).1
                  st.total_docs (parse_query pipe st.terms query))
                (get_documents_with_all_terms st.postings
                  (parse_query pipe st.terms query)).1
                st.doc_lengths st.documents_inv
                (queryLength sq
                  (build_query_vector lg
                    (get_documents_with_all_terms st.postings
                      (parse_query pipe st.terms query)).1
                    st.total_docs (parse_query pipe st.terms query)))
                order)).take k := by
          simp only [search, h0, if_false, h1, h2]
          try rfl
        have hmem : ∀ r ∈ (search lg sq pipe st query k order).2,
            ∃ d ∈ order,
              0 < similarityOf
                (build_query_vector lg
                  (get_documents_with_all_terms st.postings
                    (parse_query pipe st.terms query)).1
                  st.total_docs (parse_query pipe st.terms query))
                (get_documents_with_all_terms st.postings
                  (parse_query pipe st.terms query)).1
                st.doc_lengths
                (queryLength sq
                  (build_query_vector lg
                    (get_documents_with_all_terms st.postings
                      (parse_query pipe st.terms query)).1
                    st.total_docs (parse_query pipe st.terms query))) d ∧
              r = ⟨d, similarityOf
                (build_query_vector lg
                  (get_documents_with_all_terms st.postings
                    (parse_query pipe st.terms query)).1
                  st.total_docs (parse_query pipe st.terms query))
                (get_documents_with_all_terms st.postings
                  (parse_query pipe st.terms query)).1
                st.doc_lengths
                (queryLength sq
                  (build_query_vector lg
                    (get_documents_with_all_terms st.postings
                      (parse_query pipe st.terms query)).1
                    st.total_docs (parse_query pipe st.terms query))) d,
                lookupD st.documents_inv d ""⟩ := by
          intro r hr
          rw [hout] at hr
          have hr2 := (sortBySim_perm _).mem_iff.mp (List.take_subset k _ hr)
          exact (mem_searchResultsRaw _ _ _ _ _ _ r).mp hr2
        refine ⟨?_, fun hq => absurd hq h2, ?_⟩
        · intro r hr
          obtain ⟨d, _, hpos, hval⟩ := hmem r hr
          obtain ⟨heq, _, _⟩ := similarityOf_pos_eq _ _ _ _ _ hpos
          constructor
          · rw [hval]
            exact hpos
          · rw [hval]
            exact heq
        · intro d hd r hr hid
          obtain ⟨d', _, hpos, hval⟩ := hmem r hr
          have hdd : d' = d := by rw [hval] at hid; exact hid
          obtain ⟨_, hdl, _⟩ := similarityOf_pos_eq _ _ _ _ _ hpos
          rw [hdd, hd] at hdl
          exact absurd hdl (lt_irrefl 0)

/-- C3 (witness): the scoring theorem applied to a concrete run returning
the single result ⟨1, 1, "a"⟩. -/
theorem c3_witness :
    (search (fun _ => (1 : ℚ)) (fun x => x) pipeId stQ3 "t" 20 [1]).2
      = [⟨1, 1, "a"⟩] ∧
    (0 < (⟨1, 1, "a"⟩ : Result ℚ).similarity ∧
      (⟨1, 1, "a"⟩ : Result ℚ).similarity =
        dotProduct
          (build_query_vector (fun _ => (1 : ℚ))
            (get_documents_with_all_terms stQ3.postings
              (parse_query pipeId stQ3.terms "t")).1
            stQ3.total_docs (parse_query pipeId stQ3.terms "t"))
          (get_documents_with_all_terms stQ3.postings
            (parse_query pipeId stQ3.terms "t")).1
          (⟨1, 1, "a"⟩ : Result ℚ).doc_id
        / (lookupD stQ3.doc_lengths (⟨1, 1, "a"⟩ : Result ℚ).doc_id 1 *
            queryLength (fun x => x)
              (build_query_vector (fun _ => (1 : ℚ))
                (get_documents_with_all_terms stQ3.postings
                  (parse_query pipeId stQ3.terms "t")).1
                stQ3.total_docs (parse_query pipeId stQ3.terms "t")))) := by
  have hres : (search (fun _ => (1 : ℚ)) (fun x => x) pipeId stQ3 "t" 20 [1]).2
      = [⟨1, 1, "a"⟩] := by
    norm_num [search, parse_query, pipeId, get_documents_with_all_terms, interAll,
      build_query_vector, freqList, bump, queryLength, searchResultsRaw,
      similarityOf, dotProduct, sortBySim, insertBySim, lookup?, lookupD, keysOf,
      stQ3, List.filterMap_cons, List.filterMap_nil]
  exact ⟨hres,
    (c3_scoring (fun _ => (1 : ℚ)) (fun x => x) pipeId stQ3 "t" 20 [1]).1
      ⟨1, 1, "a"⟩ (by rw [hres]; exact List.mem_singleton.mpr rfl)⟩

/-! ## C10: missing document length defaults to 1.0 -/

/-- C10: a candidate document whose id is absent from the loaded
document-length table is scored with `doc_length = 1.0` (the default of
`self.doc_lengths.get(doc_id, 1.0)`): its similarity is the dot product
divided by `1 * query_length`, and whenever that value is positive the
document appears in the returned results rather than being excluded or
raising. -/
theorem c10_default_doc_length {α : Type} [LinearOrderedField α]
    (lg sq : α → α) (pipe : String → List String) (st : EngineState α)
    (query : String) (k : ℕ) (order : List ℤ) (d : ℤ)
    (hd : d ∉ keysOf st.doc_lengths)
    (h0 : parse_query pipe st.terms query ≠ [])
    (h1 : (get_documents_with_all_terms st.postings
      (parse_query pipe st.terms query)).2 ≠ ∅)
    (hql : 0 < queryLength sq
      (build_query_vector lg
        (get_documents_with_all_terms st.postings
          (parse_query pipe st.terms query)).1
        st.total_docs (parse_query pipe st.terms query)))
    (hmem : d ∈ order) (hk : order.length ≤ k)
    (hpos : 0 < dotProduct
        (build_query_vector lg
          (get_documents_with_all_terms st.postings
            (parse_query pipe st.terms query)).1
          st.total_docs (parse_query pipe st.terms query))
        (get_documents_with_all_terms st.postings
          (parse_query pipe st.terms query)).1 d
      / (1 * queryLength sq
          (build_query_vector lg
            (get_documents_with_all_terms st.postings
              (parse_query pipe st.terms query)).1
            st.total_docs (parse_query pipe st.terms query)))) :
    similarityOf
        (build_query_vector lg
          (get_documents_with_all_terms st.postings
            (parse_query pipe st.terms query)).1
          st.total_docs (parse_query pipe st.terms query))
        (get_documents_with_all_terms st.postings
          (parse_query pipe st.terms query)).1
        st.doc_lengths
        (queryLength sq
          (build_query_vector lg
            (get_documents_with_all_terms st.postings
              (parse_query pipe st.terms query)).1
            st.total_docs (parse_query pipe st.terms query))) d
      = dotProduct
          (build_query_vector lg
            (get_documents_with_all_terms st.postings
              (parse_query pipe st.terms query)).1
            st.total_docs (parse_query pipe st.terms query))
          (get_documents_with_all_terms st.postings
            (parse_query pipe st.terms query)).1 d
        / (1 * queryLength sq
            (build_query_vector lg
              (get_documents_with_all_terms st.postings
                (parse_query pipe st.terms query)).1
              st.total_docs (parse_query pipe st.terms query))) ∧
    d ∈ ((search lg sq pipe st query k order).2.map Result.doc_id) := by
  have hlook : lookupD st.doc_lengths d 1 = 1 := by
    rw [lookupD, (lookup?_eq_none_iff d st.doc_lengths).mpr hd]
    rfl
  have hsim : similarityOf
      (build_query_vector lg
        (get_documents_with_all_terms st.postings
          (parse_query pipe st.terms query)).1
        st.total_docs (parse_query pipe st.terms query))
      (get_documents_with_all_terms st.postings
        (parse_query pipe st.terms query)).1
      st.doc_lengths
      (queryLength sq
        (build_query_vector lg
          (get_documents_with_all_terms st.postings
            (parse_query pipe st.terms query)).1
          st.total_docs (parse_query pipe st.terms query))) d
      = dotProduct
          (build_query_vector lg
            (get_documents_with_all_terms st.postings
              (parse_query pipe st.terms query)).1
            st.total_docs (parse_query pipe st.terms query))
          (get_documents_with_all_terms st.postings
            (parse_query pipe st.terms query)).1 d
        / (1 * queryLength sq
            (build_query_vector lg
              (get_documents_with_all_terms st.postings
                (parse_query pipe st.terms query)).1
              st.total_docs (parse_query pipe st.terms query))) := by
    rw [similarityOf, hlook, if_pos ⟨zero_lt_one, hql⟩]
  refine ⟨hsim, ?_⟩
  have hout : (search lg sq pipe st query k order).2
      = (sortBySim (searchResultsRaw
          (build_query_vector lg
            (get_documents_with_all_terms st.postings
              (parse_query pipe st.terms query)).1
            st.total_docs (parse_query pipe st.terms query))
          (get_documents_with_all_terms st.postings
            (parse_query pipe st.terms query)).1
          st.doc_lengths st.documents_inv
          (queryLength sq
            (build_query_vector lg
              (get_documents_with_all_terms st.postings
                (parse_query pipe st.terms query)).1
              st.total_docs (parse_query pipe st.terms query)))
          order)).take k := by
    simp only [search, h0, if_false, h1, ne_of_gt hql]
    try rfl
  have hraw : (⟨d, similarityOf
      (build_query_vector lg
        (get_documents_with_all_terms st.postings
          (parse_query pipe st.terms query)).1
        st.total_docs (parse_query pipe st.terms query))
      (get_documents_with_all_terms st.postings
        (parse_query pipe st.terms query)).1
      st.doc_lengths
      (queryLength sq
        (build_query_vector lg
          (get_documents_with_all_terms st.postings
            (parse_query pipe st.terms query)).1
          st.total_docs (parse_query pipe st.terms query))) d,
      lookupD st.documents_inv d ""⟩ : Result α)
      ∈ searchResultsRaw
          (build_query_vector lg
            (get_documents_with_all_terms st.postings
              (parse_query pipe st.terms query)).1
            st.total_docs (parse_query pipe st.terms query))
          (get_documents_with_all_terms st.postings
            (parse_query pipe st.terms query)).1
          st.doc_lengths st.documents_inv
          (queryLength sq
            (build_query_vector lg
              (get_documents_with_all_terms st.postings
                (parse_query pipe st.terms query)).1
              st.total_docs (parse_query pipe st.terms query)))
          order := by
    rw [mem_searchResultsRaw]
    exact ⟨d, hmem, by rw [hsim]; exact hpos, rfl⟩
  rw [hout]
  have hlen : (sortBySim (searchResultsRaw
      (build_query_vector lg
        (get_documents_with_all_terms st.postings
          (parse_query pipe st.terms query)).1
        st.total_docs (parse_query pipe st.terms query))
      (get_documents_with_all_terms st.postings
        (parse_query pipe st.terms query)).1
      st.doc_lengths st.documents_inv
      (queryLength sq
        (build_query_vector lg
          (get_documents_with_all_terms st.postings
            (parse_query pipe st.terms query)).1
          st.total_docs (parse_query pipe st.terms query)))
      order)).length ≤ k := by
    rw [(sortBySim_perm _).length_eq]
    exact le_trans (List.length_filterMap_le _ _) hk
  rw [List.take_of_length_le hlen, List.mem_map]
  refine ⟨_, (sortBySim_perm _).mem_iff.mpr hraw, rfl⟩

/-- C10 (witness): document 1 has no stored length in `stQ10`, yet the
query "t" returns it (scored with the substituted norm 1.0). -/
theorem c10_witness :
    (1 : ℤ) ∉ keysOf stQ10.doc_lengths ∧
    (1 : ℤ) ∈ ((search (fun _ => (1 : ℚ)) (fun x => x) pipeId stQ10
      "t" 20 [1]).2.map Result.doc_id) := by
  refine ⟨by decide, (c10_default_doc_length (fun _ => (1 : ℚ)) (fun x => x)
    pipeId stQ10 "t" 20 [1] 1 (by decide) (by decide) (by decide)
    ?_ (by decide) (by decide) ?_).2⟩
  · norm_num [queryLength, build_query_vector, get_documents_with_all_terms,
      interAll, parse_query, pipeId, freqList, bump, lookup?, lookupD, keysOf,
      stQ10, List.filterMap_cons, List.filterMap_nil]
  · norm_num [dotProduct, queryLength, build_query_vector,
      get_documents_with_all_terms, interAll, parse_query, pipeId, freqList,
      bump, lookup?, lookupD, keysOf, stQ10, List.filterMap_cons,
      List.filterMap_nil]

/-! ## C4: document vector norms -/

theorem list_sum_eq_zero_iff_of_nonneg {α : Type} [LinearOrderedField α] :
    ∀ l : List α, (∀ x ∈ l, 0 ≤ x) → (l.sum = 0 ↔ ∀ x ∈ l, x = 0) := by
  intro l
  induction l with
  | nil => intro _; simp
  | cons x rest ih =>
    intro hnn
    rw [List.sum_cons]
    have hx : 0 ≤ x := hnn x (List.mem_cons_self x rest)
    have hrest : ∀ y ∈ rest, 0 ≤ y := fun y hy => hnn y (List.mem_cons_of_mem x hy)
    rw [add_eq_zero_iff_of_nonneg hx (List.sum_nonneg hrest), ih hrest]
    simp [List.forall_mem_cons]

theorem sumSquares_summand_nonneg {α : Type} [LinearOrderedField α] (d : ℕ)
    (ps : Postings α) :
    ∀ x ∈ ps.map (fun e =>
      match lookup? d e.2 with
      | some pd => pd.tf_idf * pd.tf_idf
      | none => 0), 0 ≤ x := by
  intro x hx
  obtain ⟨e, _, he⟩ := List.mem_map.mp hx
  cases h : lookup? d e.2 with
  | some pd => rw [h] at he; rw [← he]; exact mul_self_nonneg _
  | none => rw [h] at he; rw [← he]

/-- C4 (amended): after finalize, every document's vector norm is the
square root of the sum of squares of the tf_idf weights of its postings,
and every norm is non-negative; a norm is 0 exactly when every posting of
the document carries tf_idf weight 0 — which happens when the document
contributed no surviving posting, but also when all its postings have
zero weight (for instance when each of its terms occurs in every
document, making the idf factors 0). -/
theorem c4_document_norms (documents : List (String × ℕ)) (ps : Postings ℝ)
    (e : ℕ × ℝ) (he : e ∈ calculate_document_lengths Real.sqrt documents ps) :
    e.2 = Real.sqrt (sumSquares e.1 ps) ∧ 0 ≤ e.2 ∧
    (e.2 = 0 ↔ ∀ te ∈ ps, ∀ pd : Posting ℝ,
      lookup? e.1 te.2 = some pd → pd.tf_idf = 0) := by
  obtain ⟨q, _, hq⟩ := List.mem_map.mp he
  have he2 : e.2 = Real.sqrt (sumSquares e.1 ps) := by
    rw [← hq]
  have hnn := sumSquares_summand_nonneg 1 ps
  refine ⟨he2, by rw [he2]; exact Real.sqrt_nonneg _, ?_⟩
  rw [he2]
  have hsum_nn : 0 ≤ sumSquares e.1 ps :=
    List.sum_nonneg (sumSquares_summand_nonneg e.1 ps)
  constructor
  · intro h0
    have hle : sumSquares e.1 ps ≤ 0 := Real.sqrt_eq_zero'.mp h0
    have hz : sumSquares e.1 ps = 0 := le_antisymm hle hsum_nn
    have hall := (list_sum_eq_zero_iff_of_nonneg _
      (sumSquares_summand_nonneg e.1 ps)).mp hz
    intro te hte pd hpd
    have := hall _ (List.mem_map.mpr ⟨te, hte, rfl⟩)
    rw [hpd] at this
    exact mul_self_eq_zero.mp this
  · intro hall
    have hz : sumSquares e.1 ps = 0 := by
      rw [sumSquares]
      rw [list_sum_eq_zero_iff_of_nonneg _ (sumSquares_summand_nonneg e.1 ps)]
      intro x hx
      obtain ⟨te, hte, hx2⟩ := List.mem_map.mp hx
      rw [← hx2]
      cases h : lookup? e.1 te.2 with
      | some pd =>
        show pd.tf_idf * pd.tf_idf = 0
        rw [hall te hte pd h, mul_zero]
      | none =>
        rfl
    rw [hz, Real.sqrt_zero]

/-- C4 (witness for the amended theorem): the norms of the single-document
corpus whose one posting has weight 0. -/
theorem c4_witness :
    ((1 : ℕ), (0 : ℝ)) ∈ calculate_document_lengths Real.sqrt
      [("d", 1)] ([(1, [(1, ⟨3, 0, 0, 1⟩)])] : Postings ℝ) ∧
    (((1 : ℕ), (0 : ℝ)).2 = Real.sqrt
      (sumSquares ((1 : ℕ), (0 : ℝ)).1 ([(1, [(1, ⟨3, 0, 0, 1⟩)])] : Postings ℝ)) ∧
    0 ≤ ((1 : ℕ), (0 : ℝ)).2 ∧
    (((1 : ℕ), (0 : ℝ)).2 = 0 ↔ ∀ te ∈ ([(1, [(1, ⟨3, 0, 0, 1⟩)])] : Postings ℝ),
      ∀ pd : Posting ℝ, lookup? ((1 : ℕ), (0 : ℝ)).1 te.2 = some pd →
        pd.tf_idf = 0)) := by
  have hmem : ((1 : ℕ), (0 : ℝ)) ∈ calculate_document_lengths Real.sqrt
      [("d", 1)] ([(1, [(1, ⟨3, 0, 0, 1⟩)])] : Postings ℝ) := by
    simp [calculate_document_lengths, sumSquares, lookup?, Real.sqrt_zero]
  exact ⟨hmem, c4_document_norms _ _ _ hmem⟩

/-- C4 (counterexample): build the single document "d" whose pipeline
yields the token "w" three times.  Then N = 1 and df = 1, so idf =
ln(1/1) = 0 and the document's only posting gets tf_idf = 3 * 0 = 0: its
vector norm is 0 although it contributed a surviving posting, refuting
"norm = 0 iff the document contributed no surviving postings". -/
theorem c4_counterexample :
    calculate_document_lengths Real.sqrt
        (processAll pipeW3 [("d", "x")]).documents
        (calculate_tf_idf Real.log
          (processAll pipeW3 [("d", "x")]).documents.length
          (processAll pipeW3 [("d", "x")]).postings)
      = [(1, 0)] ∧
    lookupD (calculate_tf_idf Real.log
        (processAll pipeW3 [("d", "x")]).documents.length
        (processAll pipeW3 [("d", "x")]).postings) 1 [] ≠ [] := by
  have hb : processAll pipeW3 [("d", "x")]
      = ⟨[("d", 1)], [("w", 1)], [(1, [(1, 3)])], 2, 2⟩ := by decide
  rw [hb]
  have htf : calculate_tf_idf Real.log
      ((⟨[("d", 1)], [("w", 1)], [(1, [(1, 3)])], 2, 2⟩ :
        IndexerState).documents.length)
      ((⟨[("d", 1)], [("w", 1)], [(1, [(1, 3)])], 2, 2⟩ :
        IndexerState).postings)
      = [(1, [(1, ⟨3, 0, 0, 1⟩)])] := by
    norm_num [calculate_tf_idf, Real.log_one]
  rw [htf]
  constructor
  · norm_num [calculate_document_lengths, sumSquares, lookup?, Real.sqrt_zero]
  · norm_num [lookupD, lookup?]

/-! ## C5: inverse document frequency after finalize -/

theorem lookup?_some_mem {κ β : Type} [DecidableEq κ] (k : κ) (v : β) :
    ∀ l : List (κ × β), lookup? k l = some v → (k, v) ∈ l := by
  intro l
  induction l with
  | nil => intro h; exact absurd h (by simp [lookup?])
  | cons p rest ih =>
    intro h
    rw [lookup?] at h
    by_cases hp : p.1 = k
    · rw [if_pos hp] at h
      have hpv : p = (k, v) := by
        obtain ⟨p1, p2⟩ := p
        simp only at hp h
        rw [hp, Option.some_inj.mp h]
      rw [← hpv]
      exact List.mem_cons_self p rest
    · rw [if_neg hp] at h
      exact List.mem_cons_of_mem p (ih h)

theorem mem_upsert_elim {κ β : Type} [DecidableEq κ] (k : κ) (v : β)
    (e : κ × β) : ∀ l : List (κ × β), e ∈ upsert k v l → e = (k, v) ∨ e ∈ l := by
  intro l
  induction l with
  | nil =>
    intro h
    rw [upsert] at h
    exact Or.inl (List.mem_singleton.mp h)
  | cons p rest ih =>
    intro h
    by_cases hp : p.1 = k
    · rw [upsert, if_pos hp] at h
      rcases List.mem_cons.mp h with h1 | h1
      · exact Or.inl h1
      · exact Or.inr (List.mem_cons_of_mem p h1)
    · rw [upsert, if_neg hp] at h
      rcases List.mem_cons.mp h with h1 | h1
      · exact Or.inr (by rw [h1]; exact List.mem_cons_self p rest)
      · rcases ih h1 with h2 | h2
        · exact Or.inl h2
        · exact Or.inr (List.mem_cons_of_mem p h2)

theorem upsert_ne_nil {κ β : Type} [DecidableEq κ] (k : κ) (v : β) :
    ∀ l : List (κ × β), upsert k v l ≠ [] := by
  intro l
  cases l with
  | nil => simp [upsert]
  | cons p rest =>
    rw [upsert]
    by_cases hp : p.1 = k
    · rw [if_pos hp]; simp
    · rw [if_neg hp]; simp

theorem postingsWf_mono {docIds docIds' : List ℕ} (hs : docIds ⊆ docIds')
    {ps : RawPostings} (h : PostingsWf docIds ps) : PostingsWf docIds' ps := by
  intro e he
  obtain ⟨h1, h2, h3⟩ := h e he
  exact ⟨h1, h2, fun d hd => hs (h3 d hd)⟩

theorem postTf_wf {docIds : List ℕ} (tid docId tf : ℕ) {ps : RawPostings}
    (hdoc : docId ∈ docIds) (h : PostingsWf docIds ps) :
    PostingsWf docIds (postTf tid docId tf ps) := by
  intro e he
  rcases mem_upsert_elim _ _ e ps he with h1 | h1
  · rw [h1]
    refine ⟨upsert_ne_nil _ _ _, ?_, ?_⟩
    · cases hl : lookup? tid ps with
      | some l =>
        have hwf := h (tid, l) (lookup?_some_mem tid l ps hl)
        have : lookupD ps tid [] = l := by rw [lookupD, hl]; rfl
        rw [this]
        exact keysOf_upsert_nodup docId tf l hwf.2.1
      | none =>
        have : lookupD ps tid [] = [] := by rw [lookupD, hl]; rfl
        rw [this]
        simp [upsert, keysOf]
    · intro d hd
      cases hl : lookup? tid ps with
      | some l =>
        have hwf := h (tid, l) (lookup?_some_mem tid l ps hl)
        have hll : lookupD ps tid [] = l := by rw [lookupD, hl]; rfl
        rw [hll] at hd
        rcases List.mem_cons.mp (keysOf_upsert_subset docId tf l hd) with h2 | h2
        · rw [h2]; exact hdoc
        · exact hwf.2.2 d h2
      | none =>
        have hll : lookupD ps tid [] = [] := by rw [lookupD, hl]; rfl
        rw [hll] at hd
        rcases List.mem_cons.mp (keysOf_upsert_subset docId tf [] hd) with h2 | h2
        · rw [h2]; exact hdoc
        · exact absurd h2 (List.not_mem_nil d)
  · exact h e h1

theorem addPosting_fold_wf {docIds : List ℕ} (docId : ℕ) (hdoc : docId ∈ docIds) :
    ∀ (tf : List (String × ℕ)) (acc : List (String × ℕ) × ℕ × RawPostings),
      PostingsWf docIds acc.2.2 →
      PostingsWf docIds ((tf.foldl (addPosting docId) acc)).2.2 := by
  intro tf
  induction tf with
  | nil => exact fun acc h => h
  | cons p rest ih =>
    intro acc h
    rw [List.foldl_cons]
    apply ih
    cases h2 : lookup? p.1 acc.1 with
    | some tid =>
      simp only [addPosting, h2]
      exact postTf_wf tid docId p.2 hdoc h
    | none =>
      simp only [addPosting, h2]
      exact postTf_wf acc.2.1 docId p.2 hdoc h

theorem process_preserves_inv (pipe : String → List String) (st : IndexerState)
    (content path : String) (hinv : BuilderInv st)
    (hfresh : path ∉ keysOf st.documents) :
    BuilderInv (process_document_content pipe st content path).1 ∧
    keysOf (process_document_content pipe st content path).1.documents
      = keysOf st.documents ++ [path] := by
  obtain ⟨hk, hi, hlt, hwf⟩ := hinv
  have hdocs : (process_document_content pipe st content path).1.documents
      = st.documents ++ [(path, st.nextDocId)] :=
    upsert_of_not_mem path st.nextDocId st.documents hfresh
  have hids : (process_document_content pipe st content path).1.documents.map
      Prod.snd = st.documents.map Prod.snd ++ [st.nextDocId] := by
    rw [hdocs, List.map_append]
    rfl
  have hnext : (process_document_content pipe st content path).1.nextDocId
      = st.nextDocId + 1 := rfl
  have hfreshId : st.nextDocId ∉ st.documents.map Prod.snd := fun hmem =>
    absurd (hlt _ hmem) (lt_irrefl st.nextDocId)
  refine ⟨⟨?_, ?_, ?_, ?_⟩, ?_⟩
  · rw [hdocs, keysOf_append]
    rw [List.nodup_append]
    refine ⟨hk, List.nodup_singleton path, fun a ha hb => ?_⟩
    have haeq : a = path := by simpa [keysOf] using hb
    rw [haeq] at ha
    exact hfresh ha
  · rw [hids, List.nodup_append]
    refine ⟨hi, List.nodup_singleton _, fun a ha hb => ?_⟩
    have haeq : a = st.nextDocId := List.mem_singleton.mp hb
    rw [haeq] at ha
    exact hfreshId ha
  · rw [hids, hnext]
    intro i hmem
    rcases List.mem_append.mp hmem with h1 | h1
    · exact Nat.lt_succ_of_lt (hlt i h1)
    · rw [List.mem_singleton.mp h1]
      exact Nat.lt_succ_self _
  · rw [hids]
    have hstep : PostingsWf (st.documents.map Prod.snd ++ [st.nextDocId])
        st.postings :=
      postingsWf_mono (List.subset_append_left _ _) hwf
    have hdoc : st.nextDocId ∈ st.documents.map Prod.snd ++ [st.nextDocId] :=
      List.mem_append.mpr (Or.inr (List.mem_singleton.mpr rfl))
    exact addPosting_fold_wf st.nextDocId hdoc _ _ hstep
  · rw [hdocs, keysOf_append]
    rfl

theorem processFold_inv (pipe : String → List String) :
    ∀ (inputs : List (String × String)) (st : IndexerState),
      BuilderInv st →
      (∀ p ∈ inputs.map Prod.fst, p ∉ keysOf st.documents) →
      (inputs.map Prod.fst).Nodup →
      BuilderInv (inputs.foldl
        (fun st p => (process_document_content pipe st p.2 p.1).1) st) ∧
      keysOf (inputs.foldl
        (fun st p => (process_document_content pipe st p.2 p.1).1) st).documents
        = keysOf st.documents ++ inputs.map Prod.fst := by
  intro inputs
  induction inputs with
  | nil => intro st hinv _ _; exact ⟨hinv, by simp⟩
  | cons q rest ih =>
    intro st hinv hfresh hnd
    rw [List.map_cons, List.nodup_cons] at hnd
    obtain ⟨hinv', hkeys'⟩ := process_preserves_inv pipe st q.2 q.1 hinv
      (hfresh q.1 (by rw [List.map_cons]; exact List.mem_cons_self _ _))
    have hfresh' : ∀ p ∈ rest.map Prod.fst,
        p ∉ keysOf (process_document_content pipe st q.2 q.1).1.documents := by
      intro p hp hmem
      rw [hkeys'] at hmem
      rcases List.mem_append.mp hmem with h1 | h1
      · exact hfresh p (by rw [List.map_cons]; exact List.mem_cons_of_mem _ hp) h1
      · exact hnd.1 (by rwa [← List.mem_singleton.mp h1])
    rw [List.foldl_cons]
    obtain ⟨h1, h2⟩ := ih _ hinv' hfresh' hnd.2
    refine ⟨h1, ?_⟩
    rw [h2, hkeys', List.map_cons, List.append_assoc]
    rfl

theorem processAll_inv (pipe : String → List String)
    (inputs : List (String × String)) (hnd : (inputs.map Prod.fst).Nodup) :
    BuilderInv (processAll pipe inputs) ∧
    keysOf (processAll pipe inputs).documents = inputs.map Prod.fst := by
  have hinit : BuilderInv initIndexer := by
    refine ⟨List.nodup_nil, List.nodup_nil, ?_, ?_⟩
    · intro i hi; exact absurd hi (List.not_mem_nil i)
    · intro e he; exact absurd he (List.not_mem_nil e)
  have := processFold_inv pipe inputs initIndexer hinit
    (fun p _ hmem => absurd hmem (List.not_mem_nil p)) hnd
  exact ⟨this.1, by rw [processAll, this.2]; rfl⟩

/-- C5: after finalize, every posting of every term in the postings store
carries `df` = the number of documents holding a posting for the term and
`idf = ln(N / df)` with `N` the total document count, with no additive
smoothing; this idf is non-negative, and it is 0 exactly when `df = N`.
Hypothesis: the corpus' document identifier strings are distinct, as
`build_index` produces them (os.walk yields unique paths and split
sub-documents get distinct `#docN` suffixes). -/
theorem c5_idf (pipe : String → List String) (inputs : List (String × String))
    (hnd : (inputs.map Prod.fst).Nodup) (e : ℕ × List (ℕ × Posting ℝ))
    (he : e ∈ calculate_tf_idf Real.log
      (processAll pipe inputs).documents.length (processAll pipe inputs).postings)
    (q : ℕ × Posting ℝ) (hq : q ∈ e.2) :
    q.2.df = e.2.length ∧
    q.2.idf = Real.log
      (((processAll pipe inputs).documents.length : ℝ) / (q.2.df : ℝ)) ∧
    0 ≤ q.2.idf ∧
    (q.2.idf = 0 ↔ q.2.df = (processAll pipe inputs).documents.length) := by
  obtain ⟨re, hre, hef⟩ := List.mem_map.mp he
  obtain ⟨r0, hr0, hqf⟩ := List.mem_map.mp (by rw [← hef] at hq; exact hq)
  have hdf : q.2.df = re.2.length := by rw [← hqf]
  have hidf : q.2.idf = Real.log
      (((processAll pipe inputs).documents.length : ℝ) / (re.2.length : ℝ)) := by
    rw [← hqf]
  have hlen : e.2.length = re.2.length := by
    rw [← hef]
    exact List.length_map _ _
  have hwf := (processAll_inv pipe inputs hnd).1.2.2.2 re hre
  have hdf1 : 1 ≤ re.2.length :=
    Nat.pos_of_ne_zero (fun h => hwf.1 (List.length_eq_zero.mp h))
  have hkeyslen : (keysOf re.2).length = re.2.length := List.length_map _ _
  have hidslen : ((processAll pipe inputs).documents.map Prod.snd).length
      = (processAll pipe inputs).documents.length := List.length_map _ _
  have hdfN : re.2.length ≤ (processAll pipe inputs).documents.length := by
    rw [← hkeyslen, ← hidslen]
    exact (List.subperm_of_subset hwf.2.1 hwf.2.2).length_le
  have hNpos : 1 ≤ (processAll pipe inputs).documents.length :=
    le_trans hdf1 hdfN
  have hdfposR : (0 : ℝ) < (re.2.length : ℝ) := by
    exact_mod_cast Nat.lt_of_lt_of_le Nat.zero_lt_one hdf1
  have hx1 : (1 : ℝ) ≤ ((processAll pipe inputs).documents.length : ℝ)
      / (re.2.length : ℝ) :=
    (one_le_div hdfposR).mpr (by exact_mod_cast hdfN)
  refine ⟨by rw [hdf, hlen], by rw [hidf, hdf], ?_, ?_⟩
  · rw [hidf]
    exact Real.log_nonneg hx1
  · rw [hidf, hdf]
    constructor
    · intro h0
      rcases Real.log_eq_zero.mp h0 with hz | hz | hz
      · rw [hz] at hx1; linarith
      · have : ((processAll pipe inputs).documents.length : ℝ)
            = (re.2.length : ℝ) :=
          (div_eq_one_iff_eq (ne_of_gt hdfposR)).mp hz
        exact_mod_cast this.symm
      · rw [hz] at hx1; linarith
    · intro h0
      have : ((processAll pipe inputs).documents.length : ℝ)
          / (re.2.length : ℝ) = 1 :=
        (div_eq_one_iff_eq (ne_of_gt hdfposR)).mpr (by exact_mod_cast h0.symm)
      rw [this, Real.log_one]

/-- C5 (witness): the single-document, single-term corpus: N = 1, df = 1,
idf = ln 1 = 0 = ln(N/df), and idf = 0 holds together with df = N. -/
theorem c5_witness :
    (([("d", "x")].map Prod.fst).Nodup ∧
      ((1 : ℕ), [((1 : ℕ), (⟨3, 0, 0, 1⟩ : Posting ℝ))])
        ∈ calculate_tf_idf Real.log
          (processAll pipeW3 [("d", "x")]).documents.length
          (processAll pipeW3 [("d", "x")]).postings ∧
      ((1 : ℕ), (⟨3, 0, 0, 1⟩ : Posting ℝ))
        ∈ [((1 : ℕ), (⟨3, 0, 0, 1⟩ : Posting ℝ))]) ∧
    ((⟨3, 0, 0, 1⟩ : Posting ℝ).df
        = [((1 : ℕ), (⟨3, 0, 0, 1⟩ : Posting ℝ))].length ∧
      (⟨3, 0, 0, 1⟩ : Posting ℝ).idf = Real.log
        (((processAll pipeW3 [("d", "x")]).documents.length : ℝ)
          / ((⟨3, 0, 0, 1⟩ : Posting ℝ).df : ℝ)) ∧
      0 ≤ (⟨3, 0, 0, 1⟩ : Posting ℝ).idf ∧
      ((⟨3, 0, 0, 1⟩ : Posting ℝ).idf = 0 ↔
        (⟨3, 0, 0, 1⟩ : Posting ℝ).df
          = (processAll pipeW3 [("d", "x")]).documents.length)) := by
  have hb : processAll pipeW3 [("d", "x")]
      = ⟨[("d", 1)], [("w", 1)], [(1, [(1, 3)])], 2, 2⟩ := by decide
  have hmem : ((1 : ℕ), [((1 : ℕ), (⟨3, 0, 0, 1⟩ : Posting ℝ))])
      ∈ calculate_tf_idf Real.log
        (processAll pipeW3 [("d", "x")]).documents.length
        (processAll pipeW3 [("d", "x")]).postings := by
    rw [hb]
    norm_num [calculate_tf_idf, Real.log_one]
  refine ⟨⟨by decide, hmem, List.mem_singleton.mpr rfl⟩, ?_⟩
  exact c5_idf pipeW3 [("d", "x")] (by decide) _ hmem _
    (List.mem_singleton.mpr rfl)

/-! ## C7: load-time error handling -/

theorem loadDocsStep_isSome (acc : List (String × ℤ) × List (ℤ × String))
    (r : List String) : (loadDocsStep acc r).isSome ↔ docRecordOK r := by
  rcases r with _ | ⟨p, _ | ⟨i, _ | ⟨x, rest⟩⟩⟩ <;>
    simp [loadDocsStep, docRecordOK]

theorem loadTermsStep_isSome (acc : List (String × ℤ)) (r : List String) :
    (loadTermsStep acc r).isSome ↔ docRecordOK r := by
  rcases r with _ | ⟨p, _ | ⟨i, _ | ⟨x, rest⟩⟩⟩ <;>
    simp [loadTermsStep, docRecordOK]

theorem loadPostingsStep_isSome (acc : EPostings ℚ) (r : List String) :
    (loadPostingsStep acc r).isSome ↔ postingRecordOK r := by
  rcases r with _ | ⟨a, _ | ⟨b, _ | ⟨c, _ | ⟨d, _ | ⟨e, _ | ⟨f, _ | ⟨g, rest⟩⟩⟩⟩⟩⟩⟩ <;>
    simp [loadPostingsStep, postingRecordOK]
  cases h1 : parseInt? a <;> cases h2 : parseInt? b <;>
    cases h3 : parseFloat? c <;> cases h4 : parseInt? d <;>
    cases h5 : parseFloat? e <;> cases h6 : parseInt? f <;> simp

theorem loadLengthsStep_isSome (acc : List (ℤ × ℚ)) (r : List String) :
    (loadLengthsStep acc r).isSome ↔ lengthRecordOK r := by
  rcases r with _ | ⟨a, _ | ⟨b, _ | ⟨x, rest⟩⟩⟩ <;>
    simp [loadLengthsStep, lengthRecordOK]
  cases h1 : parseInt? a <;> cases h2 : parseFloat? b <;> simp

/-- A table-loading fold succeeds exactly when every record is
individually well-formed (provided each step's success does not depend on
the accumulator, as holds for all four loaders). -/
theorem foldM?_isSome {σ ρ : Type} (f : σ → ρ → Option σ) (P : ρ → Prop)
    (hf : ∀ acc r, (f acc r).isSome ↔ P r) :
    ∀ (rs : List ρ) (acc : σ), (foldM? f rs acc).isSome ↔ ∀ r ∈ rs, P r := by
  intro rs
  induction rs with
  | nil => intro acc; simp [foldM?]
  | cons r rest ih =>
    intro acc
    rw [foldM?]
    cases h : f acc r with
    | some acc' =>
      have hP : P r := (hf acc r).mp (by rw [h]; rfl)
      simp only [ih acc', List.forall_mem_cons]
      exact ⟨fun hrest => ⟨hP, hrest⟩, fun hall => hall.2⟩
    | none =>
      have hP : ¬ P r := fun hp => by
        have := (hf acc r).mpr hp
        rw [h] at this
        exact absurd this (by simp)
      simp only [List.forall_mem_cons]
      constructor
      · intro habs; exact absurd habs (by simp)
      · intro hall; exact absurd hall.1 hP

/-- C7 (amended): load_index fails exactly on a missing table or a record
that is syntactically malformed (wrong field count or an unparsable
number); the success condition is purely per-record and per-table, so
referential integrity across the four tables is never checked — an index
whose records reference identifiers absent from other tables loads
successfully (see the counterexample), and failure is a reported return
value rather than an abort. -/
theorem c7_load_checks (dT tT pT lT : List (List String)) :
    ((load_index (some dT) (some tT) (some pT) (some lT)).isSome ↔
      ((∀ r ∈ dT, docRecordOK r) ∧ (∀ r ∈ tT, docRecordOK r) ∧
       (∀ r ∈ pT, postingRecordOK r) ∧ (∀ r ∈ lT, lengthRecordOK r))) ∧
    (∀ b c d, load_index none b c d = none) ∧
    (∀ a c d, load_index a none c d = none) ∧
    (∀ a b d, load_index a b none d = none) ∧
    (∀ a b c, load_index a b c none = none) := by
  have hDocs := foldM?_isSome loadDocsStep docRecordOK loadDocsStep_isSome dT
    ([], [])
  have hTerms := foldM?_isSome loadTermsStep docRecordOK loadTermsStep_isSome
    tT []
  have hPosts := foldM?_isSome loadPostingsStep postingRecordOK
    loadPostingsStep_isSome pT []
  have hLens := foldM?_isSome loadLengthsStep lengthRecordOK
    loadLengthsStep_isSome lT []
  have hld : loadDocs dT = foldM? loadDocsStep dT ([], []) := rfl
  refine ⟨?_, ?_, ?_, ?_, ?_⟩
  · cases hD : foldM? loadDocsStep dT ([], []) with
    | none =>
      rw [hD] at hDocs
      simp only [load_index, hld, hD]
      simp [← hDocs]
    | some di =>
      rw [hD] at hDocs
      cases hT : foldM? loadTermsStep tT [] with
      | none =>
        rw [hT] at hTerms
        simp only [load_index, hld, hD, hT]
        simp [← hDocs, ← hTerms]
      | some tm =>
        rw [hT] at hTerms
        cases hP : foldM? loadPostingsStep pT [] with
        | none =>
          rw [hP] at hPosts
          simp only [load_index, hld, hD, hT, hP]
          simp [← hDocs, ← hTerms, ← hPosts]
        | some ps =>
          rw [hP] at hPosts
          cases hL : foldM? loadLengthsStep lT [] with
          | none =>
            rw [hL] at hLens
            simp only [load_index, hld, hD, hT, hP, hL]
            simp [← hDocs, ← hTerms, ← hPosts, ← hLens]
          | some ls =>
            rw [hL] at hLens
            simp only [load_index, hld, hD, hT, hP, hL]
            simp [← hDocs, ← hTerms, ← hPosts, ← hLens]
  · intro b c d; rfl
  · intro a c d
    cases a with
    | none => rfl
    | some dT2 =>
      cases hD : loadDocs dT2 with
      | none => simp [load_index, hD]
      | some di => simp [load_index, hD]
  · intro a b d
    cases a with
    | none => rfl
    | some dT2 =>
      cases hD : loadDocs dT2 with
      | none => simp [load_index, hD]
      | some di =>
        cases b with
        | none => simp [load_index, hD]
        | some tT2 =>
          cases hT : foldM? loadTermsStep tT2 [] with
          | none => simp [load_index, hD, hT]
          | some tm => simp [load_index, hD, hT]
  · intro a b c
    cases a with
    | none => rfl
    | some dT2 =>
      cases hD : loadDocs dT2 with
      | none => simp [load_index, hD]
      | some di =>
        cases b with
        | none => simp [load_index, hD]
        | some tT2 =>
          cases hT : foldM? loadTermsStep tT2 [] with
          | none => simp [load_index, hD, hT]
          | some tm =>
            cases c with
            | none => simp [load_index, hD, hT]
            | some pT2 =>
              cases hP : foldM? loadPostingsStep pT2 [] with
              | none => simp [load_index, hD, hT, hP]
              | some ps => simp [load_index, hD, hT, hP]

/-- C7 (counterexample): a persisted index whose postings table references
document id 5 while the documents table only registers id 1 — a
referential-integrity violation across tables — loads successfully:
`load_index` reports success and produces an engine state holding the
dangling reference, instead of failing. -/
theorem c7_counterexample :
    (load_index (some [["a", "1"]]) (some [["w", "7"]])
      (some [["7", "5", "1.0", "1", "1.0", "1"]]) (some [["1", "1.0"]])).isSome
      = true ∧
    keysOf (lookupD ((load_index (some [["a", "1"]]) (some [["w", "7"]])
      (some [["7", "5", "1.0", "1", "1.0", "1"]]) (some [["1", "1.0"]])).getD
        ⟨[], [], [], [], [], 0⟩).postings 7 []) = [5] ∧
    ((load_index (some [["a", "1"]]) (some [["w", "7"]])
      (some [["7", "5", "1.0", "1", "1.0", "1"]]) (some [["1", "1.0"]])).getD
        ⟨[], [], [], [], [], 0⟩).documents.map Prod.snd = [1] := by
  decide

/-- C7 (witness for the amended theorem): a malformed record (non-numeric
id) makes the load fail, via the success characterization. -/
theorem c7_witness :
    ((load_index (some [["a", "1"]]) (some [["w", "x"]]) (some []) (some [])).isSome
      ↔ ((∀ r ∈ [["a", "1"]], docRecordOK r) ∧
         (∀ r ∈ [["w", "x"]], docRecordOK r) ∧
         (∀ r ∈ ([] : List (List String)), postingRecordOK r) ∧
         (∀ r ∈ ([] : List (List String)), lengthRecordOK r))) ∧
    (load_index (some [["a", "1"]]) (some [["w", "x"]]) (some []) (some [])).isSome
      = false :=
  ⟨(c7_load_checks [["a", "1"]] [["w", "x"]] [] []).1, by decide⟩

/-! ## C9: the number rendering of save_index parses back exactly -/

theorem charDigit?_digitChar {d : ℕ} (hd : d < 10) :
    charDigit? (digitChar d) = some d := by
  interval_cases d <;> rfl

theorem parseDigitsAux_append (l1 l2 : List Char) :
    ∀ acc, parseDigitsAux (l1 ++ l2) acc =
      match parseDigitsAux l1 acc with
      | some m => parseDigitsAux l2 m
      | none => none := by
  induction l1 with
  | nil => intro acc; rfl
  | cons c cs ih =>
    intro acc
    rw [List.cons_append]
    simp only [parseDigitsAux]
    cases charDigit? c with
    | some d => exact ih _
    | none => rfl

theorem natToChars_base {n : ℕ} (h1 : n ≠ 0) (h2 : n < 10) :
    natToChars n = [digitChar n] := by
  rw [natToChars, if_neg h1,
    Nat.digits_def' (by norm_num : (1:ℕ) < 10) (Nat.pos_of_ne_zero h1),
    Nat.div_eq_of_lt h2, Nat.mod_eq_of_lt h2]
  simp

theorem natToChars_step {n : ℕ} (h : 10 ≤ n) :
    natToChars n = natToChars (n / 10) ++ [digitChar (n % 10)] := by
  have hn0 : n ≠ 0 := by omega
  have hq0 : n / 10 ≠ 0 := by omega
  rw [natToChars, if_neg hn0, natToChars, if_neg hq0,
    Nat.digits_def' (by norm_num : (1:ℕ) < 10) (Nat.pos_of_ne_zero hn0),
    List.map_cons, List.reverse_cons]

theorem parseDigitsAux_natToChars (n : ℕ) :
    parseDigitsAux (natToChars n) 0 = some n := by
  induction n using Nat.strong_induction_on with
  | _ n ih =>
    by_cases h0 : n = 0
    · subst h0; rfl
    · by_cases h10 : n < 10
      · rw [natToChars_base h0 h10]
        simp only [parseDigitsAux, charDigit?_digitChar h10]
        rw [Nat.zero_mul, Nat.zero_add]
      · push_neg at h10
        rw [natToChars_step h10, parseDigitsAux_append,
          ih (n / 10) (by omega)]
        simp only [parseDigitsAux,
          charDigit?_digitChar (Nat.mod_lt n (by norm_num))]
        have hdm : n / 10 * 10 + n % 10 = n := by omega
        rw [hdm]

theorem natToChars_ne_nil (n : ℕ) : natToChars n ≠ [] := by
  rw [natToChars]
  by_cases h : n = 0
  · simp [h]
  · rw [if_neg h]
    simp [Nat.digits_ne_nil_iff_ne_zero.mpr h]

theorem parseNatChars_natToChars (n : ℕ) :
    parseNatChars (natToChars n) = some n := by
  cases hc : natToChars n with
  | nil => exact absurd hc (natToChars_ne_nil n)
  | cons c cs =>
    show parseDigitsAux (c :: cs) 0 = some n
    rw [← hc]
    exact parseDigitsAux_natToChars n

theorem natToChars_all_digits (n : ℕ) :
    ∀ c ∈ natToChars n, (charDigit? c).isSome := by
  intro c hc
  rw [natToChars] at hc
  by_cases h : n = 0
  · rw [if_pos h] at hc
    rw [List.mem_singleton.mp hc]
    rfl
  · rw [if_neg h, List.mem_reverse] at hc
    obtain ⟨d, hd, hcd⟩ := List.mem_map.mp hc
    rw [← hcd,
      charDigit?_digitChar (Nat.digits_lt_base (by norm_num) hd)]
    rfl

theorem natToChars_head_ne_dash (n : ℕ) :
    ¬ (natToChars n).head? = some '-' := by
  intro hcontra
  have hmem : '-' ∈ natToChars n := by
    cases hc : natToChars n with
    | nil => exact absurd hc (natToChars_ne_nil n)
    | cons c cs =>
      rw [hc] at hcontra
      have hcd : c = '-' := by simpa using hcontra
      rw [← hcd]
      exact List.mem_cons_self c cs
  have := natToChars_all_digits n '-' hmem
  exact absurd this (by decide)

theorem natToChars_no_dot (n : ℕ) : '.' ∉ natToChars n := by
  intro hmem
  have := natToChars_all_digits n '.' hmem
  exact absurd this (by decide)

/-- `parseInt?` inverts `natStr` (the id rendering of save_index). -/
theorem parseInt?_natStr (n : ℕ) : parseInt? (natStr n) = some (n : ℤ) := by
  show parseIntChars (natToChars n) = some (n : ℤ)
  rw [parseIntChars, if_neg (natToChars_head_ne_dash n),
    parseNatChars_natToChars]
  rfl

theorem splitDot_append (l1 l2 : List Char) (h : '.' ∉ l1) :
    splitDot (l1 ++ '.' :: l2) = (l1, some l2) := by
  induction l1 with
  | nil => rfl
  | cons c cs ih =>
    have hc : ¬ c = '.' := fun hcc => h (by rw [hcc]; exact List.mem_cons_self _ _)
    rw [List.cons_append]
    simp only [splitDot, if_neg hc,
      ih (fun hm => h (List.mem_cons_of_mem c hm))]

theorem parseDigitsAux_zeros (k : ℕ) :
    parseDigitsAux (List.replicate k '0') 0 = some 0 := by
  induction k with
  | zero => rfl
  | succ k ih =>
    rw [List.replicate_succ]
    simpa [parseDigitsAux, charDigit?] using ih

theorem natToChars_length_le (m : ℕ) (hm : m < 10 ^ 6) :
    (natToChars m).length ≤ 6 := by
  rw [natToChars]
  by_cases h : m = 0
  · simp [h]
  · rw [if_neg h, List.length_reverse, List.length_map]
    by_contra hc
    push_neg at hc
    have h1 : (10:ℕ) ^ 7 ≤ 10 ^ (Nat.digits 10 m).length :=
      Nat.pow_le_pow_right (by norm_num) (by omega)
    have h2 := Nat.base_pow_length_digits_le 10 m (by norm_num) h
    have h3 := le_trans h1 h2
    norm_num at h3 hm
    omega

theorem pad6_length {l : List Char} (h : l.length ≤ 6) :
    (pad6 l).length = 6 := by
  rw [pad6, List.length_append, List.length_replicate]
  omega

theorem parseDigitsAux_pad6 (m : ℕ) :
    parseDigitsAux (pad6 (natToChars m)) 0 = some m := by
  rw [pad6, parseDigitsAux_append, parseDigitsAux_zeros]
  exact parseDigitsAux_natToChars m

/-- The unsigned fixed-point rendering of `a / 10^6` parses back to
exactly that rational. -/
theorem parseFloatCore_decimal (a : ℕ) :
    parseFloatCore (natToChars (a / 1000000) ++
        '.' :: pad6 (natToChars (a % 1000000)))
      = some ((a : ℚ) / 1000000) := by
  have hmod : a % 1000000 < 10 ^ 6 := by
    have h := Nat.mod_lt a (show 0 < 1000000 by norm_num)
    norm_num
    omega
  have hsplit := splitDot_append (natToChars (a / 1000000))
    (pad6 (natToChars (a % 1000000))) (natToChars_no_dot _)
  cases hc : natToChars (a / 1000000) with
  | nil => exact absurd hc (natToChars_ne_nil _)
  | cons c cs =>
    rw [hc] at hsplit
    rw [parseFloatCore, hsplit]
    show ((parseDigitsAux (c :: cs) 0).bind fun i =>
      (parseDigitsAux (pad6 (natToChars (a % 1000000))) 0).bind fun f =>
        some ((i : ℚ) + (f : ℚ) /
          (10 : ℚ) ^ (pad6 (natToChars (a % 1000000))).length)) = _
    rw [← hc, parseDigitsAux_natToChars, parseDigitsAux_pad6 _,
      pad6_length (natToChars_length_le _ hmod)]
    simp only [Option.some_bind]
    congr 1
    have hsplit2 : (a : ℚ) = 1000000 * ((a / 1000000 : ℕ) : ℚ)
        + ((a % 1000000 : ℕ) : ℚ) := by
      exact_mod_cast (Nat.div_add_mod a 1000000).symm
    rw [hsplit2]
    ring

/-- `parseFloat?` on a string built from explicit characters. -/
theorem parseFloat?_mk (l : List Char) :
    parseFloat? (String.mk l)
      = if l.head? = some '-' then (parseFloatCore l.tail).map Neg.neg
        else parseFloatCore l := rfl

/-- `parseFloat?` inverts `format6`: the float value reconstructed from
the 6-digit fixed-point rendering of `x` is `x` rounded at 6 fractional
decimal digits. -/
theorem parseFloat?_format6 (x : ℝ) :
    parseFloat? (format6 x) = some (round6 x) := by
  rw [format6, parseFloat?_mk, round6]
  by_cases hneg : round (x * 1000000) < 0
  · rw [decimal6, if_pos hneg, List.singleton_append]
    split
    · show (parseFloatCore (natToChars ((round (x * 1000000)).natAbs / 1000000) ++
        '.' :: pad6 (natToChars ((round (x * 1000000)).natAbs % 1000000)))).map
          Neg.neg = _
      rw [parseFloatCore_decimal, Option.map_some']
      congr 1
      have h1 : (((round (x * 1000000)).natAbs : ℕ) : ℤ)
          = -(round (x * 1000000)) := by omega
      have habs : ((((round (x * 1000000)).natAbs : ℕ) : ℤ) : ℚ)
          = ((-(round (x * 1000000)) : ℤ) : ℚ) := by rw [h1]
      rw [Int.cast_natCast, Int.cast_neg] at habs
      rw [habs, neg_div, neg_neg]
    · next h =>
      exact absurd rfl h
  · push_neg at hneg
    rw [decimal6, if_neg (not_lt.mpr hneg), List.nil_append]
    have hhead : ¬ (natToChars ((round (x * 1000000)).natAbs / 1000000) ++
        '.' :: pad6 (natToChars ((round (x * 1000000)).natAbs % 1000000))).head?
        = some '-' := by
      intro hcon
      cases hc : natToChars ((round (x * 1000000)).natAbs / 1000000) with
      | nil => exact absurd hc (natToChars_ne_nil _)
      | cons c cs =>
        rw [hc, List.cons_append] at hcon
        have hcd : c = '-' := by simpa using hcon
        exact natToChars_head_ne_dash ((round (x * 1000000)).natAbs / 1000000)
          (by rw [hc, hcd]; rfl)
    rw [if_neg hhead, parseFloatCore_decimal]
    congr 1
    rw [Int.cast_natAbs, abs_of_nonneg (by exact_mod_cast hneg)]

/-! ## C9: reloading the saved tables rebuilds the stores -/

theorem foldM?_append {σ ρ : Type} (f : σ → ρ → Option σ) (l1 l2 : List ρ) :
    ∀ acc, foldM? f (l1 ++ l2) acc =
      match foldM? f l1 acc with
      | some a => foldM? f l2 a
      | none => none := by
  induction l1 with
  | nil => intro acc; rfl
  | cons r rest ih =>
    intro acc
    rw [List.cons_append]
    simp only [foldM?]
    cases f acc r with
    | some a => exact ih a
    | none => rfl

theorem foldM?_cons_some {σ ρ : Type} (f : σ → ρ → Option σ) (r : ρ)
    (rs : List ρ) (acc a : σ) (h : f acc r = some a) :
    foldM? f (r :: rs) acc = foldM? f rs a := by
  rw [foldM?, h]

theorem foldM?_append_some {σ ρ : Type} (f : σ → ρ → Option σ)
    (l1 l2 : List ρ) (acc a : σ) (h : foldM? f l1 acc = some a) :
    foldM? f (l1 ++ l2) acc = foldM? f l2 a := by
  rw [foldM?_append, h]

theorem upsert_last {κ β : Type} [DecidableEq κ] (k : κ) (v w : β) :
    ∀ acc : List (κ × β), k ∉ keysOf acc →
      upsert k v (acc ++ [(k, w)]) = acc ++ [(k, v)] := by
  intro acc
  induction acc with
  | nil => intro _; simp [upsert]
  | cons p rest ih =>
    intro h
    have hp : ¬ p.1 = k := fun hq => h (mem_keysOf_cons.mpr (Or.inl hq.symm))
    rw [List.cons_append, upsert, if_neg hp,
      ih (fun hm => h (mem_keysOf_cons.mpr (Or.inr hm))), List.cons_append]

theorem lookupD_not_mem {κ β : Type} [DecidableEq κ] (l : List (κ × β))
    (k : κ) (d : β) (h : k ∉ keysOf l) : lookupD l k d = d := by
  rw [lookupD, (lookup?_eq_none_iff k l).mpr h]
  rfl

theorem lookupD_last {κ β : Type} [DecidableEq κ] (k : κ) (w d : β)
    (acc : List (κ × β)) (h : k ∉ keysOf acc) :
    lookupD (acc ++ [(k, w)]) k d = w := by
  rw [lookupD, lookup?_append, (lookup?_eq_none_iff k acc).mpr h]
  simp [lookup?]

/-- Reloading the saved terms table rebuilds the term dict. -/
theorem loadTerms_save (terms : List (String × ℕ)) :
    ∀ acc : List (String × ℤ),
      (keysOf terms).Nodup → (∀ t ∈ keysOf terms, t ∉ keysOf acc) →
      foldM? loadTermsStep (saveTerms terms) acc
        = some (acc ++ terms.map fun e => (e.1, (e.2 : ℤ))) := by
  induction terms with
  | nil => intro acc _ _; simp [saveTerms, foldM?]
  | cons e rest ih =>
    intro acc hnd hf
    rw [keysOf_cons, List.nodup_cons] at hnd
    rw [saveTerms, List.map_cons]
    have hstep : loadTermsStep acc [e.1, natStr e.2]
        = some (upsert e.1 (e.2 : ℤ) acc) := by
      simp only [loadTermsStep, parseInt?_natStr]
      rfl
    rw [upsert_of_not_mem _ _ acc (hf e.1 (mem_keysOf_cons.mpr (Or.inl rfl)))]
      at hstep
    rw [foldM?_cons_some _ _ _ _ _ hstep]
    have hf' : ∀ t ∈ keysOf rest, t ∉ keysOf (acc ++ [(e.1, (e.2 : ℤ))]) := by
      intro t ht hmem
      rw [keysOf_append] at hmem
      rcases List.mem_append.mp hmem with h1 | h1
      · exact hf t (mem_keysOf_cons.mpr (Or.inr ht)) h1
      · have : t = e.1 := by simpa [keysOf] using h1
        exact hnd.1 (this ▸ ht)
    have := ih (acc ++ [(e.1, (e.2 : ℤ))]) hnd.2 hf'
    rw [show saveTerms rest = rest.map (fun e => [e.1, natStr e.2]) from rfl]
      at this
    rw [this, List.append_assoc]
    rfl

/-- Reloading the saved document-length table rebuilds the length dict,
each stored length rounded at 6 decimal digits. -/
theorem loadLengths_save (lens : List (ℕ × ℝ)) :
    ∀ acc : List (ℤ × ℚ),
      (lens.map Prod.fst).Nodup →
      (∀ i ∈ lens.map Prod.fst, ((i : ℕ) : ℤ) ∉ keysOf acc) →
      foldM? loadLengthsStep (saveLengths lens) acc
        = some (acc ++ lens.map fun e => ((e.1 : ℤ), round6 e.2)) := by
  induction lens with
  | nil => intro acc _ _; simp [saveLengths, foldM?]
  | cons e rest ih =>
    intro acc hnd hf
    rw [List.map_cons, List.nodup_cons] at hnd
    rw [saveLengths, List.map_cons]
    have hstep : loadLengthsStep acc [natStr e.1, format6 e.2]
        = some (upsert (e.1 : ℤ) (round6 e.2) acc) := by
      simp only [loadLengthsStep, parseInt?_natStr, parseFloat?_format6]
      rfl
    rw [upsert_of_not_mem _ _ acc (hf e.1 (List.mem_cons_self _ _))] at hstep
    rw [foldM?_cons_some _ _ _ _ _ hstep]
    have hf' : ∀ i ∈ rest.map Prod.fst,
        ((i : ℕ) : ℤ) ∉ keysOf (acc ++ [((e.1 : ℤ), round6 e.2)]) := by
      intro i hi hmem
      rw [keysOf_append] at hmem
      rcases List.mem_append.mp hmem with h1 | h1
      · exact hf i (List.mem_cons_of_mem _ hi) h1
      · have hcast : ((i : ℕ) : ℤ) = ((e.1 : ℕ) : ℤ) := by
          simpa [keysOf] using h1
        have : i = e.1 := by exact_mod_cast hcast
        exact hnd.1 (this ▸ hi)
    have := ih (acc ++ [((e.1 : ℤ), round6 e.2)]) hnd.2 hf'
    rw [show saveLengths rest = rest.map (fun e => [natStr e.1, format6 e.2])
      from rfl] at this
    rw [this, List.append_assoc]
    rfl

/-- Reloading the saved documents table rebuilds both document dicts. -/
theorem loadDocs_save (docs : List (String × ℕ)) :
    ∀ (accD : List (String × ℤ)) (accI : List (ℤ × String)),
      (keysOf docs).Nodup → (docs.map Prod.snd).Nodup →
      (∀ p ∈ keysOf docs, p ∉ keysOf accD) →
      (∀ i ∈ docs.map Prod.snd, ((i : ℕ) : ℤ) ∉ keysOf accI) →
      foldM? loadDocsStep (saveDocuments docs) (accD, accI)
        = some (accD ++ docs.map (fun e => (e.1, (e.2 : ℤ))),
                accI ++ docs.map (fun e => ((e.2 : ℤ), e.1))) := by
  induction docs with
  | nil => intro accD accI _ _ _ _; simp [saveDocuments, foldM?]
  | cons e rest ih =>
    intro accD accI hknd hind hkf hif
    rw [keysOf_cons, List.nodup_cons] at hknd
    rw [List.map_cons, List.nodup_cons] at hind
    rw [saveDocuments, List.map_cons]
    have hstep : loadDocsStep (accD, accI) [e.1, natStr e.2]
        = some (upsert e.1 (e.2 : ℤ) accD, upsert (e.2 : ℤ) e.1 accI) := by
      simp only [loadDocsStep, parseInt?_natStr]
      rfl
    rw [upsert_of_not_mem _ _ accD (hkf e.1 (mem_keysOf_cons.mpr (Or.inl rfl))),
      upsert_of_not_mem _ _ accI (hif e.2 (List.mem_cons_self _ _))] at hstep
    rw [foldM?_cons_some _ _ _ _ _ hstep]
    have hkf' : ∀ p ∈ keysOf rest,
        p ∉ keysOf (accD ++ [(e.1, (e.2 : ℤ))]) := by
      intro p hp hmem
      rw [keysOf_append] at hmem
      rcases List.mem_append.mp hmem with h1 | h1
      · exact hkf p (mem_keysOf_cons.mpr (Or.inr hp)) h1
      · have : p = e.1 := by simpa [keysOf] using h1
        exact hknd.1 (this ▸ hp)
    have hif' : ∀ i ∈ rest.map Prod.snd,
        ((i : ℕ) : ℤ) ∉ keysOf (accI ++ [((e.2 : ℤ), e.1)]) := by
      intro i hi hmem
      rw [keysOf_append] at hmem
      rcases List.mem_append.mp hmem with h1 | h1
      · exact hif i (List.mem_cons_of_mem _ hi) h1
      · have hcast : ((i : ℕ) : ℤ) = ((e.2 : ℕ) : ℤ) := by
          simpa [keysOf] using h1
        have : i = e.2 := by exact_mod_cast hcast
        exact hind.1 (this ▸ hi)
    have := ih (accD ++ [(e.1, (e.2 : ℤ))]) (accI ++ [((e.2 : ℤ), e.1)])
      hknd.2 hind.2 hkf' hif'
    rw [show saveDocuments rest = rest.map (fun e => [e.1, natStr e.2])
      from rfl] at this
    rw [this, List.append_assoc, List.append_assoc]
    rfl

/-- Loading the remaining postings records of one term extends that
term's inner dict in place (the term entry sits at the end of the store
built so far). -/
theorem loadPostings_group (t : ℕ) :
    ∀ (dps : List (ℕ × Posting ℝ)) (acc : EPostings ℚ)
      (cur : List (ℤ × PostingData ℚ)),
      ((t : ℕ) : ℤ) ∉ keysOf acc →
      (∀ d ∈ dps.map Prod.fst, ((d : ℕ) : ℤ) ∉ keysOf cur) →
      (dps.map Prod.fst).Nodup →
      foldM? loadPostingsStep
        (dps.map fun q => [natStr t, natStr q.1, format6 q.2.tf_idf,
          natStr q.2.tf, format6 q.2.idf, natStr q.2.df])
        (acc ++ [((t : ℤ), cur)])
      = some (acc ++ [((t : ℤ), cur ++ dps.map fun q => ((q.1 : ℤ),
          (⟨round6 q.2.tf_idf, (q.2.tf : ℤ), round6 q.2.idf, (q.2.df : ℤ)⟩
            : PostingData ℚ)))]) := by
  intro dps
  induction dps with
  | nil => intro acc cur _ _ _; simp [foldM?]
  | cons q rest ih =>
    intro acc cur hta hdf hnd
    rw [List.map_cons, List.nodup_cons] at hnd
    rw [List.map_cons]
    have hstep : loadPostingsStep (acc ++ [((t : ℤ), cur)])
        [natStr t, natStr q.1, format6 q.2.tf_idf, natStr q.2.tf,
          format6 q.2.idf, natStr q.2.df]
        = some (acc ++ [((t : ℤ), cur ++ [((q.1 : ℤ),
            (⟨round6 q.2.tf_idf, (q.2.tf : ℤ), round6 q.2.idf, (q.2.df : ℤ)⟩
              : PostingData ℚ))])]) := by
      simp only [loadPostingsStep, parseInt?_natStr, parseFloat?_format6,
        Option.bind_eq_bind, Option.some_bind]
      rw [lookupD_last _ _ _ _ hta,
        upsert_of_not_mem _ _ cur (hdf q.1 (List.mem_cons_self _ _)),
        upsert_last _ _ _ acc hta]
      rfl
    rw [foldM?_cons_some _ _ _ _ _ hstep]
    have hdf' : ∀ d ∈ rest.map Prod.fst, ((d : ℕ) : ℤ) ∉ keysOf (cur ++
        [((q.1 : ℤ), (⟨round6 q.2.tf_idf, (q.2.tf : ℤ), round6 q.2.idf,
          (q.2.df : ℤ)⟩ : PostingData ℚ))]) := by
      intro d hd hmem
      rw [keysOf_append] at hmem
      rcases List.mem_append.mp hmem with h1 | h1
      · exact hdf d (List.mem_cons_of_mem _ hd) h1
      · have hcast : ((d : ℕ) : ℤ) = ((q.1 : ℕ) : ℤ) := by
          simpa [keysOf] using h1
        have : d = q.1 := by exact_mod_cast hcast
        exact hnd.1 (this ▸ hd)
    rw [ih acc _ hta hdf' hnd.2, List.append_assoc]
    rfl

/-- Loading all records of one nonempty postings entry appends the cast
entry to the store built so far. -/
theorem loadPostings_entry (t : ℕ) (dps : List (ℕ × Posting ℝ))
    (acc : EPostings ℚ) (hne : dps ≠ [])
    (hta : ((t : ℕ) : ℤ) ∉ keysOf acc)
    (hnd : (dps.map Prod.fst).Nodup) :
    foldM? loadPostingsStep
      (dps.map fun q => [natStr t, natStr q.1, format6 q.2.tf_idf,
        natStr q.2.tf, format6 q.2.idf, natStr q.2.df]) acc
    = some (acc ++ [((t : ℤ), dps.map fun q => ((q.1 : ℤ),
        (⟨round6 q.2.tf_idf, (q.2.tf : ℤ), round6 q.2.idf, (q.2.df : ℤ)⟩
          : PostingData ℚ)))]) := by
  cases dps with
  | nil => exact absurd rfl hne
  | cons q rest =>
    rw [List.map_cons, List.nodup_cons] at hnd
    rw [List.map_cons]
    have hstep : loadPostingsStep acc
        [natStr t, natStr q.1, format6 q.2.tf_idf, natStr q.2.tf,
          format6 q.2.idf, natStr q.2.df]
        = some (acc ++ [((t : ℤ), [((q.1 : ℤ),
            (⟨round6 q.2.tf_idf, (q.2.tf : ℤ), round6 q.2.idf, (q.2.df : ℤ)⟩
              : PostingData ℚ))])]) := by
      simp only [loadPostingsStep, parseInt?_natStr, parseFloat?_format6,
        Option.bind_eq_bind, Option.some_bind]
      rw [lookupD_not_mem acc _ _ hta]
      rw [show upsert ((q.1 : ℕ) : ℤ) (⟨round6 q.2.tf_idf, (q.2.tf : ℤ),
        round6 q.2.idf, (q.2.df : ℤ)⟩ : PostingData ℚ) [] = [((q.1 : ℤ),
        ⟨round6 q.2.tf_idf, (q.2.tf : ℤ), round6 q.2.idf, (q.2.df : ℤ)⟩)]
        from rfl]
      rw [upsert_of_not_mem _ _ acc hta]
      rfl
    rw [foldM?_cons_some _ _ _ _ _ hstep]
    have hdf' : ∀ d ∈ rest.map Prod.fst, ((d : ℕ) : ℤ) ∉ keysOf
        [((q.1 : ℤ), (⟨round6 q.2.tf_idf, (q.2.tf : ℤ), round6 q.2.idf,
          (q.2.df : ℤ)⟩ : PostingData ℚ))] := by
      intro d hd hmem
      have hcast : ((d : ℕ) : ℤ) = ((q.1 : ℕ) : ℤ) := by
        simpa [keysOf] using hmem
      have : d = q.1 := by exact_mod_cast hcast
      exact hnd.1 (this ▸ hd)
    exact loadPostings_group t rest acc _ hta hdf' hnd.2

/-- Reloading the saved postings table rebuilds the two-level postings
store, every float field rounded at 6 decimal digits. -/
theorem loadPostings_save (ps : Postings ℝ) :
    ∀ acc : EPostings ℚ,
      (keysOf ps).Nodup →
      (∀ t ∈ keysOf ps, ((t : ℕ) : ℤ) ∉ keysOf acc) →
      (∀ e ∈ ps, e.2 ≠ [] ∧ (e.2.map Prod.fst).Nodup) →
      foldM? loadPostingsStep (savePostings ps) acc
        = some (acc ++ ps.map fun e => ((e.1 : ℤ), e.2.map fun q =>
            ((q.1 : ℤ), (⟨round6 q.2.tf_idf, (q.2.tf : ℤ), round6 q.2.idf,
              (q.2.df : ℤ)⟩ : PostingData ℚ)))) := by
  induction ps with
  | nil => intro acc _ _ _; simp [savePostings, foldM?]
  | cons e rest ih =>
    intro acc hnd hf hwf
    rw [keysOf_cons, List.nodup_cons] at hnd
    have hrec : savePostings (e :: rest)
        = (e.2.map fun q => [natStr e.1, natStr q.1, format6 q.2.tf_idf,
            natStr q.2.tf, format6 q.2.idf, natStr q.2.df])
          ++ savePostings rest := by
      rw [savePostings, savePostings, List.flatMap_cons]
    obtain ⟨hne, hinnd⟩ := hwf e (List.mem_cons_self _ _)
    rw [hrec, foldM?_append_some _ _ _ _ _ (loadPostings_entry e.1 e.2 acc hne
      (hf e.1 (mem_keysOf_cons.mpr (Or.inl rfl))) hinnd)]
    have hf' : ∀ t ∈ keysOf rest, ((t : ℕ) : ℤ) ∉ keysOf (acc ++
        [((e.1 : ℤ), e.2.map fun q => ((q.1 : ℤ),
          (⟨round6 q.2.tf_idf, (q.2.tf : ℤ), round6 q.2.idf, (q.2.df : ℤ)⟩
            : PostingData ℚ)))]) := by
      intro t ht hmem
      rw [keysOf_append] at hmem
      rcases List.mem_append.mp hmem with h1 | h1
      · exact hf t (mem_keysOf_cons.mpr (Or.inr ht)) h1
      · have hcast : ((t : ℕ) : ℤ) = ((e.1 : ℕ) : ℤ) := by
          simpa [keysOf] using h1
        have : t = e.1 := by exact_mod_cast hcast
        exact hnd.1 (this ▸ ht)
    rw [ih _ hnd.2 hf' (fun e2 he2 => hwf e2 (List.mem_cons_of_mem _ he2))]
    rw [List.map_cons, List.append_assoc]
    rfl

/-- C9: saving the four tables of a finalized index and loading them back
succeeds and reconstructs the engine state exactly, ids and strings
preserved and every float field rounded at 6 fractional decimal digits —
without re-running tokenization or stemming (`load_index` consumes the
four tables alone; no collaborator appears in its signature).  Moreover,
whenever the 6-digit rounding is exact on every stored weight and length,
search over the reloaded index returns exactly the results of search over
the original in-memory index, for every query, limit and candidate
iteration order.  The duplicate-freeness and nonemptiness hypotheses are
the builder invariant of the finalize output. -/
theorem c9_roundtrip (docs terms : List (String × ℕ)) (ps : Postings ℝ)
    (lens : List (ℕ × ℝ))
    (hpaths : (keysOf docs).Nodup) (hids : (docs.map Prod.snd).Nodup)
    (hterms : (keysOf terms).Nodup) (hpkeys : (keysOf ps).Nodup)
    (hinner : ∀ e ∈ ps, e.2 ≠ [] ∧ (e.2.map Prod.fst).Nodup)
    (hlkeys : (lens.map Prod.fst).Nodup) :
    load_index (some (saveDocuments docs)) (some (saveTerms terms))
        (some (savePostings ps)) (some (saveLengths lens))
      = some
        { documents := docs.map fun e => (e.1, (e.2 : ℤ))
          documents_inv := docs.map fun e => ((e.2 : ℤ), e.1)
          terms := terms.map fun e => (e.1, (e.2 : ℤ))
          postings := ps.map fun e => ((e.1 : ℤ), e.2.map fun q =>
            ((q.1 : ℤ), ⟨round6 q.2.tf_idf, (q.2.tf : ℤ), round6 q.2.idf,
              (q.2.df : ℤ)⟩))
          doc_lengths := lens.map fun e => ((e.1 : ℤ), round6 e.2)
          total_docs := docs.length } ∧
    ((∀ e ∈ ps, ∀ q ∈ e.2, ((round6 q.2.tf_idf : ℚ) : ℝ) = q.2.tf_idf ∧
        ((round6 q.2.idf : ℚ) : ℝ) = q.2.idf) →
      (∀ e ∈ lens, ((round6 e.2 : ℚ) : ℝ) = e.2) →
      ∀ (lg sq : ℝ → ℝ) (pipe : String → List String) (query : String)
        (k : ℕ) (order : List ℤ),
        search lg sq pipe (castEngine
          { documents := docs.map fun e => (e.1, (e.2 : ℤ))
            documents_inv := docs.map fun e => ((e.2 : ℤ), e.1)
            terms := terms.map fun e => (e.1, (e.2 : ℤ))
            postings := ps.map fun e => ((e.1 : ℤ), e.2.map fun q =>
              ((q.1 : ℤ), ⟨round6 q.2.tf_idf, (q.2.tf : ℤ), round6 q.2.idf,
                (q.2.df : ℤ)⟩))
            doc_lengths := lens.map fun e => ((e.1 : ℤ), round6 e.2)
            total_docs := docs.length }) query k order
          = search lg sq pipe (engineOf docs terms ps lens) query k order) := by
  constructor
  · have hD : loadDocs (saveDocuments docs)
        = some (docs.map (fun e => (e.1, (e.2 : ℤ))),
                docs.map fun e => ((e.2 : ℤ), e.1)) := by
      rw [show loadDocs (saveDocuments docs)
        = foldM? loadDocsStep (saveDocuments docs) ([], []) from rfl]
      rw [loadDocs_save docs [] [] hpaths hids
        (fun p _ h => absurd h (List.not_mem_nil p))
        (fun i _ h => absurd h (List.not_mem_nil _))]
      rw [List.nil_append, List.nil_append]
    have hT : foldM? loadTermsStep (saveTerms terms) []
        = some (terms.map fun e => (e.1, (e.2 : ℤ))) := by
      rw [loadTerms_save terms [] hterms
        (fun t _ h => absurd h (List.not_mem_nil t))]
      rw [List.nil_append]
    have hP : foldM? loadPostingsStep (savePostings ps) []
        = some (ps.map fun e => ((e.1 : ℤ), e.2.map fun q =>
            ((q.1 : ℤ), (⟨round6 q.2.tf_idf, (q.2.tf : ℤ), round6 q.2.idf,
              (q.2.df : ℤ)⟩ : PostingData ℚ)))) := by
      rw [loadPostings_save ps [] hpkeys
        (fun t _ h => absurd h (List.not_mem_nil _)) hinner]
      rw [List.nil_append]
    have hL : foldM? loadLengthsStep (saveLengths lens)
        [] = some (lens.map fun e => ((e.1 : ℤ), round6 e.2)) := by
      rw [loadLengths_save lens [] hlkeys
        (fun i _ h => absurd h (List.not_mem_nil _))]
      rw [List.nil_append]
    simp only [load_index, hD, hT, hP, hL]
    rw [List.length_map]
  · intro hex1 hex2 lg sq pipe query k order
    have hstate : castEngine
        { documents := docs.map fun e => (e.1, (e.2 : ℤ))
          documents_inv := docs.map fun e => ((e.2 : ℤ), e.1)
          terms := terms.map fun e => (e.1, (e.2 : ℤ))
          postings := ps.map fun e => ((e.1 : ℤ), e.2.map fun q =>
            ((q.1 : ℤ), ⟨round6 q.2.tf_idf, (q.2.tf : ℤ), round6 q.2.idf,
              (q.2.df : ℤ)⟩))
          doc_lengths := lens.map fun e => ((e.1 : ℤ), round6 e.2)
          total_docs := docs.length }
        = engineOf docs terms ps lens := by
      rw [castEngine, engineOf]
      have hpost : ((ps.map fun e => ((e.1 : ℤ), e.2.map fun q =>
          ((q.1 : ℤ), (⟨round6 q.2.tf_idf, (q.2.tf : ℤ), round6 q.2.idf,
            (q.2.df : ℤ)⟩ : PostingData ℚ)))).map fun e => (e.1,
          e.2.map fun q => (q.1, (⟨(q.2.tf_idf : ℝ), q.2.tf, (q.2.idf : ℝ),
            q.2.df⟩ : PostingData ℝ))))
          = ps.map fun e => ((e.1 : ℤ), e.2.map fun q =>
            ((q.1 : ℤ), (⟨q.2.tf_idf, (q.2.tf : ℤ), q.2.idf,
              (q.2.df : ℤ)⟩ : PostingData ℝ))) := by
        rw [List.map_map]
        refine List.map_congr_left ?_
        intro e he
        simp only [Function.comp_apply, List.map_map]
        refine congrArg _ (List.map_congr_left ?_)
        intro q hq
        obtain ⟨h1, h2⟩ := hex1 e he q hq
        simp only [Function.comp_apply]
        rw [h1, h2]
      have hlen : ((lens.map fun e => ((e.1 : ℤ), round6 e.2)).map
          fun e => (e.1, ((e.2 : ℚ) : ℝ)))
          = lens.map fun e => ((e.1 : ℤ), e.2) := by
        rw [List.map_map]
        refine List.map_congr_left ?_
        intro e he
        simp only [Function.comp_apply]
        rw [hex2 e he]
      simp only at hpost hlen ⊢
      rw [hpost, hlen]
    rw [hstate]

/-- C9 (witness): the round-trip theorem at the one-document,
one-term index whose stored weights are exactly representable. -/
theorem c9_witness :
    ((keysOf [("d", (1 : ℕ))]).Nodup ∧
      (([("d", (1 : ℕ))].map Prod.snd).Nodup) ∧
      (keysOf [("w", (1 : ℕ))]).Nodup ∧
      (keysOf ([(1, [(1, ⟨3, 0, 0, 1⟩)])] : Postings ℝ)).Nodup ∧
      (([((1 : ℕ), (0 : ℝ))].map Prod.fst).Nodup)) ∧
    (load_index (some (saveDocuments [("d", 1)]))
        (some (saveTerms [("w", 1)]))
        (some (savePostings ([(1, [(1, ⟨3, 0, 0, 1⟩)])] : Postings ℝ)))
        (some (saveLengths [((1 : ℕ), (0 : ℝ))]))
      = some
        { documents := [("d", (1 : ℕ))].map fun e => (e.1, (e.2 : ℤ))
          documents_inv := [("d", (1 : ℕ))].map fun e => ((e.2 : ℤ), e.1)
          terms := [("w", (1 : ℕ))].map fun e => (e.1, (e.2 : ℤ))
          postings := ([(1, [(1, ⟨3, 0, 0, 1⟩)])] : Postings ℝ).map fun e =>
            ((e.1 : ℤ), e.2.map fun q =>
              ((q.1 : ℤ), ⟨round6 q.2.tf_idf, (q.2.tf : ℤ), round6 q.2.idf,
                (q.2.df : ℤ)⟩))
          doc_lengths := [((1 : ℕ), (0 : ℝ))].map fun e =>
            ((e.1 : ℤ), round6 e.2)
          total_docs := [("d", (1 : ℕ))].length }) :=
  ⟨⟨by decide, by decide, by decide, by decide, by decide⟩,
    (c9_roundtrip [("d", 1)] [("w", 1)] [(1, [(1, ⟨3, 0, 0, 1⟩)])]
      [((1 : ℕ), (0 : ℝ))] (by decide) (by decide) (by decide) (by decide)
      (by
        intro e he
        rw [List.mem_singleton.mp he]
        exact ⟨by simp, by simp⟩)
      (by simp)).1⟩

end VSSE
